import Mathlib

/-!
Verification of the learning-path-advisor path-planning and utility engine.

This file gives a shallow embedding, in Lean 4, of the core algorithms of the
backend (the files advanced_goal_based_agent.py, advanced_utility_based_agent.py,
hybrid_agent.py and enhanced_learning_path_advisor.py), and proves or refutes a
list of claims about them.

Modelling conventions:
- Python float values are modelled as rationals; infinity becomes the top
  element of WithTop Rat.
- Python dicts are modelled as functions into Option (a None result is a
  missing key) or as association lists when iteration order matters; a dict
  lookup that can raise KeyError is modelled explicitly, returning an Err.
- The while loops run on fuel; exhausting the fuel returns the error Err.fuel.
  Every claim about a completed run is stated conditionally on an Except.ok
  result, and every concrete run in this file has ample fuel.
- The heapq priority queue is modelled as a plain list; heappop extracts the
  least element in the lexicographic (priority, node) order, which is exactly
  the observable behaviour of the Python binary heap on tuples.
-/

namespace LPA

/-- Nodes of the routes graph are course names, that is, strings. -/
abbrev Node := String

/-- A graph is a Python dict mapping a node to its ordered list of outgoing
(destination, cost) pairs, modelled as an association list in insertion order. -/
abbrev Graph := List (Node × List (Node × ℚ))

/-- Keys of the routes dict, in insertion order. -/
def keysOf (g : Graph) : List Node := g.map Prod.fst

/-- Dict lookup: the value stored at the first matching key, if any. -/
def lookupG (g : Graph) (n : Node) : Option (List (Node × ℚ)) :=
  match g with
  | [] => none
  | (k, es) :: rest => if k = n then some es else lookupG rest n

/-- Membership of an edge in the graph: the source node maps (by dict lookup)
to an edge list containing the (target, weight) pair. -/
def EdgeIn (g : Graph) (u v : Node) (w : ℚ) : Prop :=
  ∃ es, lookupG g u = some es ∧ (v, w) ∈ es

/-- All edge weights of the graph are nonnegative. -/
def NonnegWeights (g : Graph) : Prop :=
  ∀ p ∈ g, ∀ e ∈ p.2, (0 : ℚ) ≤ e.2

instance (g : Graph) : Decidable (NonnegWeights g) := by
  unfold NonnegWeights; infer_instance

/-- Paths from s, together with their node list and total cost: ReachP g s p n c
holds when p is a list of nodes starting at s and ending at n, each consecutive
pair joined by an edge of g, and the chosen edge weights sum to c. -/
inductive ReachP (g : Graph) (s : Node) : List Node → Node → ℚ → Prop
  | refl : ReachP g s [s] s 0
  | step {p u c v w} : ReachP g s p u c → EdgeIn g u v w → ReachP g s (p ++ [v]) v (c + w)

/-- Errors of the embedded computations. keyError is a Python KeyError,
valueError a Python ValueError raised by validation, and fuel marks an
exhausted loop bound (the embedded loop did not terminate within the bound). -/
inductive Err
  | keyError
  | valueError
  | fuel
  | sqrtNotModelled
  deriving DecidableEq, Repr

/-- Generic extraction of the least element of a list under a strict
comparison, returning it together with the remaining elements. With ltb the
lexicographic order on (priority, node) pairs this is the observable behaviour
of heapq.heappop on the Python heap. -/
def popMin {α : Type} (ltb : α → α → Bool) : List α → Option (α × List α)
  | [] => none
  | x :: xs =>
    match popMin ltb xs with
    | none => some (x, [])
    | some (m, rest) => if ltb m x then some (m, x :: rest) else some (x, xs)

/-- Strict lexicographic comparison of (cost, node) pairs, as Python compares
the tuples pushed on the heap. -/
def lexLt (a b : ℚ × Node) : Bool :=
  decide (a.1 < b.1) || (decide (a.1 = b.1) && decide (a.2 < b.2))

/-- Strict lexicographic comparison for the A* heap, whose priorities are
f-scores (possibly infinite in the model, never in a reachable run). -/
def lexLtT (a b : WithTop ℚ × Node) : Bool :=
  decide (a.1 < b.1) || (decide (a.1 = b.1) && decide (a.2 < b.2))

/-- State of the Dijkstra main loop: the distances dict, the previous dict,
the heap and the visited set. The dicts are total functions into Option; a
None value means the key is absent (a lookup raises KeyError). For previous,
some none is a stored Python None and some (some m) a stored predecessor. -/
structure DState where
  dist : Node → Option (WithTop ℚ)
  prev : Node → Option (Option Node)
  queue : List (ℚ × Node)
  visited : List Node

/-- Initial Dijkstra state: every key of the routes dict gets distance
infinity and previous None, then the start distance is set to 0 and the heap
holds the single entry (0, start). -/
def initState (g : Graph) (start : Node) : DState :=
  { dist := fun n => if n = start then some 0 else if n ∈ keysOf g then some ⊤ else none
    prev := fun n => if n ∈ keysOf g then some none else none
    queue := [((0 : ℚ), start)]
    visited := [] }

/-- Inner relaxation loop of Dijkstra: for each (neighbor, weight) of the
popped node u at popped distance d, if the neighbor is unvisited, compare
d + weight against distances[neighbor] (KeyError if absent) and on improvement
update distance and predecessor and push the new entry. -/
def relaxAll (d : ℚ) (u : Node) : List (Node × ℚ) → DState → Except Err DState
  | [], st => .ok st
  | (nb, w) :: es, st =>
    if nb ∈ st.visited then relaxAll d u es st
    else
      match st.dist nb with
      | none => .error .keyError
      | some dnb =>
        if ((d + w : ℚ) : WithTop ℚ) < dnb then
          relaxAll d u es
            { st with
              dist := fun n => if n = nb then some ((d + w : ℚ) : WithTop ℚ) else st.dist n
              prev := fun n => if n = nb then some (some u) else st.prev n
              queue := st.queue ++ [((d + w : ℚ), nb)] }
        else relaxAll d u es st

/-- Main Dijkstra loop. Each iteration pops the least (distance, node) entry,
discards it if the node is already visited (lazy deletion), otherwise marks it
visited, stops when it is the goal, and relaxes its outgoing edges. -/
def dijkstraLoop (g : Graph) (goal : Node) : Nat → DState → Except Err DState
  | 0, _ => .error .fuel
  | f + 1, st =>
    match popMin lexLt st.queue with
    | none => .ok st
    | some ((d, u), rest) =>
      if u ∈ st.visited then dijkstraLoop g goal f { st with queue := rest }
      else
        let st1 : DState := { st with queue := rest, visited := u :: st.visited }
        if u = goal then .ok st1
        else
          match lookupG g u with
          | none => .error .keyError
          | some es =>
            match relaxAll d u es st1 with
            | .error e => .error e
            | .ok st2 => dijkstraLoop g goal f st2

/-- Total number of stored edges of the graph. -/
def edgeCount (g : Graph) : Nat := (g.map (fun p => p.2.length)).sum

/-- Fuel for the search loops: one initial push plus at most one push per
stored edge bounds the number of pops, with slack. -/
def loopFuel (g : Graph) : Nat := edgeCount g + (keysOf g).length + 2

/-- Path reconstruction: walk the previous dict from the goal backwards,
consing as we go (the Python code appends then reverses, which yields the same
list). A missing key is a KeyError; a stored None ends the walk. -/
def reconstruct (prev : Node → Option (Option Node)) :
    Nat → Node → List Node → Except Err (List Node)
  | 0, _, _ => .error .fuel
  | f + 1, cur, acc =>
    match prev cur with
    | none => .error .keyError
    | some none => .ok (cur :: acc)
    | some (some p) => reconstruct prev f p (cur :: acc)

/-- Dijkstra shortest path, returning (path, cost): some path with the
distance of the goal on success, (none, infinity) when the reconstructed walk
does not start at the start node. -/
def dijkstra_pathfinding (g : Graph) (start goal : Node) :
    Except Err (Option (List Node) × WithTop ℚ) := do
  let st ← dijkstraLoop g goal (loopFuel g) (initState g start)
  let path ← reconstruct st.prev ((keysOf g).length + 2) goal []
  if path.head? = some start then
    match st.dist goal with
    | none => .error .keyError
    | some c => .ok (some path, c)
  else .ok (none, ⊤)

/-- State of the A* main loop: g-score and f-score dicts, previous dict,
open-set heap and closed set. -/
structure AState where
  g_score : Node → Option (WithTop ℚ)
  f_score : Node → Option (WithTop ℚ)
  prev : Node → Option (Option Node)
  queue : List (WithTop ℚ × Node)
  closed : List Node

/-- Initial A* state: infinities everywhere, zero g-score at the start, start
f-score from the heuristic, one heap entry (f-score of start, start). -/
def initAState (g : Graph) (h : Node → Node → ℚ) (start goal : Node) : AState :=
  { g_score := fun n => if n = start then some 0 else if n ∈ keysOf g then some ⊤ else none
    f_score := fun n =>
      if n = start then some ((h start goal : ℚ) : WithTop ℚ)
      else if n ∈ keysOf g then some ⊤ else none
    prev := fun n => if n ∈ keysOf g then some none else none
    queue := [(((h start goal : ℚ) : WithTop ℚ), start)]
    closed := [] }

/-- Inner relaxation loop of A*: for each neighbor not in the closed set,
tentative = g_score[current] + weight is compared against g_score[neighbor]
(KeyError on a missing key, as in the source); on improvement predecessor,
g-score and f-score are updated and the f-score entry pushed. -/
def astarRelax (h : Node → Node → ℚ) (goal u : Node) :
    List (Node × ℚ) → AState → Except Err AState
  | [], st => .ok st
  | (nb, w) :: es, st =>
    if nb ∈ st.closed then astarRelax h goal u es st
    else
      match st.g_score u with
      | none => .error .keyError
      | some gu =>
        match st.g_score nb with
        | none => .error .keyError
        | some gnb =>
          if gu + (w : WithTop ℚ) < gnb then
            astarRelax h goal u es
              { st with
                g_score := fun n => if n = nb then some (gu + (w : WithTop ℚ)) else st.g_score n
                f_score := fun n =>
                  if n = nb then some (gu + (w : WithTop ℚ) + ((h nb goal : ℚ) : WithTop ℚ))
                  else st.f_score n
                prev := fun n => if n = nb then some (some u) else st.prev n
                queue := st.queue ++ [(gu + (w : WithTop ℚ) + ((h nb goal : ℚ) : WithTop ℚ), nb)] }
          else astarRelax h goal u es st

/-- Main A* loop, identical in shape to the Dijkstra loop but popping by
f-score (the popped priority itself is discarded, as in the source). -/
def astarLoop (g : Graph) (h : Node → Node → ℚ) (goal : Node) :
    Nat → AState → Except Err AState
  | 0, _ => .error .fuel
  | f + 1, st =>
    match popMin lexLtT st.queue with
    | none => .ok st
    | some ((_, u), rest) =>
      if u ∈ st.closed then astarLoop g h goal f { st with queue := rest }
      else
        let st1 : AState := { st with queue := rest, closed := u :: st.closed }
        if u = goal then .ok st1
        else
          match lookupG g u with
          | none => .error .keyError
          | some es =>
            match astarRelax h goal u es st1 with
            | .error e => .error e
            | .ok st2 => astarLoop g h goal f st2

/-- A* shortest path. A missing heuristic is the ValueError the source raises;
on success the returned cost is the g-score dict entry of the goal. -/
def astar_pathfinding (g : Graph) (heuristic : Option (Node → Node → ℚ)) (start goal : Node) :
    Except Err (Option (List Node) × WithTop ℚ) := do
  match heuristic with
  | none => .error .valueError
  | some h => do
    let st ← astarLoop g h goal (loopFuel g) (initAState g h start goal)
    let path ← reconstruct st.prev ((keysOf g).length + 2) goal []
    if path.head? = some start then
      match st.g_score goal with
      | none => .error .keyError
      | some c => .ok (some path, c)
    else .ok (none, ⊤)

/-- State of the BFS loop: FIFO queue, previous dict, and the visited dict.
The visited dict is read through .get with default False in the source, so it
is modelled as a total boolean function. -/
structure BState where
  queue : List Node
  prev : Node → Option (Option Node)
  visited : Node → Bool

/-- Expansion of one BFS node: unvisited neighbors are marked, given a
predecessor and appended to the queue; routes are read with .get so a missing
key contributes no neighbors and raises nothing. -/
def bfsExpand (cur : Node) : List (Node × ℚ) → BState → BState
  | [], st => st
  | (nb, _) :: es, st =>
    if st.visited nb then bfsExpand cur es st
    else bfsExpand cur es
      { queue := st.queue ++ [nb]
        prev := fun n => if n = nb then some (some cur) else st.prev n
        visited := fun n => if n = nb then true else st.visited n }

/-- Main BFS loop: pop the queue front, stop at the goal, else expand. -/
def bfsLoop (g : Graph) (goal : Node) : Nat → BState → Except Err BState
  | 0, _ => .error .fuel
  | f + 1, st =>
    match st.queue with
    | [] => .ok st
    | cur :: rest =>
      if cur = goal then .ok { st with queue := rest }
      else bfsLoop g goal f (bfsExpand cur ((lookupG g cur).getD []) { st with queue := rest })

/-- Breadth-first search; the returned cost is the number of edges of the
path, that is max(len(path) - 1, 0) as a float in the source. -/
def bfs_pathfinding (g : Graph) (start goal : Node) :
    Except Err (Option (List Node) × WithTop ℚ) := do
  let st ← bfsLoop g goal (loopFuel g)
    { queue := [start]
      prev := fun n => if n ∈ keysOf g then some none else none
      visited := fun n => n = start }
  let path ← reconstruct st.prev ((keysOf g).length + 2) goal []
  if path.head? = some start then
    .ok (some path, ((max (path.length - 1) 0 : ℕ) : ℚ))
  else .ok (none, ⊤)

/-- Graph validation run by the agent constructor: a missing start or goal key
raises ValueError. The subsequent scan over dangling edge targets only prints
warnings in the source and has no observable effect, so it is not modelled. -/
def validate_graph (g : Graph) (start goal : Node) : Except Err Unit :=
  if start ∈ keysOf g then
    if goal ∈ keysOf g then .ok () else .error .valueError
  else .error .valueError

/-- Pathfinding algorithm selector, mirroring the PathfindingAlgorithm enum. -/
inductive PathfindingAlgorithm
  | dijkstra
  | astar
  | bfs
  deriving DecidableEq, Repr

/-- Printable token of an algorithm, as stored in the enum value. -/
def PathfindingAlgorithm.token : PathfindingAlgorithm → String
  | .dijkstra => "dijkstra"
  | .astar => "astar"
  | .bfs => "bfs"

/-- The advanced goal-based agent: the constructor stores its arguments and
immediately validates the graph, so construction itself fails with ValueError
on a missing start or goal key and no search method can run afterwards. -/
structure Agent where
  routes : Graph
  start : Node
  goal : Node
  heuristic : Option (Node → Node → ℚ)
  algorithm : PathfindingAlgorithm

/-- Agent construction (the Python constructor): store fields, then validate. -/
def mkAgent (routes : Graph) (start goal : Node) (heuristic : Option (Node → Node → ℚ))
    (algorithm : PathfindingAlgorithm) : Except Err Agent := do
  let _ ← validate_graph routes start goal
  .ok { routes := routes, start := start, goal := goal
        heuristic := heuristic, algorithm := algorithm }

/-- Join of a node list with the separator used throughout the source. -/
def joinPath (p : List Node) : String := String.intercalate " -> " p

/-- Plan: dispatch to the selected algorithm and render the path as a joined
string, or (None, infinity) when no path was found. The unknown-algorithm
fallback branch of the source is unreachable with the closed enum. -/
def plan (g : Graph) (start goal : Node) (heuristic : Option (Node → Node → ℚ))
    (algorithm : PathfindingAlgorithm) : Except Err (Option String × WithTop ℚ) := do
  let (path?, cost) ←
    match algorithm with
    | .dijkstra => dijkstra_pathfinding g start goal
    | .astar => astar_pathfinding g heuristic start goal
    | .bfs => bfs_pathfinding g start goal
  match path? with
  | none => .ok (none, ⊤)
  | some p => .ok (some (joinPath p), cost)

/-- Removal of every stored copy of the directed edge (u, v), keeping every
other stored edge of every node, as built by the edge-removal loop of
find_all_paths. -/
def removeEdge (g : Graph) (u v : Node) : Graph :=
  g.map (fun kv => (kv.1, if kv.1 = u then kv.2.filter (fun e => !(e.1 == v)) else kv.2))

/-- Graph copy built by the node-removal loop of find_all_paths: the edge list
of the removed node becomes empty, and every other edge list is filtered to
drop edges whose target is the removed node. -/
def removeNode (g : Graph) (x : Node) : Graph :=
  g.map (fun kv => (kv.1, if kv.1 = x then [] else kv.2.filter (fun e => !(e.1 == x))))

/-- Stable insertion of an entry into a cost-sorted list: the entry goes in
front of the first element whose cost is not smaller. -/
def insertByCost (x : List Node × WithTop ℚ) :
    List (List Node × WithTop ℚ) → List (List Node × WithTop ℚ)
  | [] => [x]
  | y :: ys => if y.2 < x.2 then y :: insertByCost x ys else x :: y :: ys

/-- Stable sort by ascending cost. Python list.sort and sorted are stable, and
a stable sort by a key is unique, so this insertion sort returns exactly the
list the source builds. -/
def sortByCost (l : List (List Node × WithTop ℚ)) : List (List Node × WithTop ℚ) :=
  l.foldr insertByCost []

/-- Edge-removal loop of find_all_paths: for each consecutive pair of the
shortest path, rebuild the graph without that edge, construct a temporary
agent (which validates) and rerun Dijkstra; keep results within the cost
ceiling that differ from the shortest path. allPaths is still the one-element
list holding the shortest path while this loop runs, so the membership test of
the source is equality with the shortest path. -/
def edgeCandidates (g : Graph) (start goal : Node) (maxCost : WithTop ℚ) (sp : List Node) :
    List (Node × Node) → List (List Node × WithTop ℚ) →
    Except Err (List (List Node × WithTop ℚ))
  | [], acc => .ok acc
  | (u, v) :: rest, acc => do
    let g2 := removeEdge g u v
    let _ ← validate_graph g2 start goal
    let (alt?, altc) ← dijkstra_pathfinding g2 start goal
    match alt? with
    | none => edgeCandidates g start goal maxCost sp rest acc
    | some ap =>
      if ap.isEmpty then edgeCandidates g start goal maxCost sp rest acc
      else if altc ≤ maxCost then
        if ap = sp then edgeCandidates g start goal maxCost sp rest acc
        else edgeCandidates g start goal maxCost sp rest (acc ++ [(ap, altc)])
      else edgeCandidates g start goal maxCost sp rest acc

/-- Append of candidate entries whose path is not already present, in order,
as the candidate-merging loop of find_all_paths does. -/
def appendNew (acc : List (List Node × WithTop ℚ)) :
    List (List Node × WithTop ℚ) → List (List Node × WithTop ℚ)
  | [] => acc
  | (p, c) :: rest =>
    if p ∈ acc.map Prod.fst then appendNew acc rest
    else appendNew (acc ++ [(p, c)]) rest

/-- Node-removal loop of find_all_paths over the intermediate nodes of the
shortest path, appending each new result that fits the ceiling. -/
def nodeAltLoop (g : Graph) (start goal : Node) (maxCost : WithTop ℚ) :
    List Node → List (List Node × WithTop ℚ) → Except Err (List (List Node × WithTop ℚ))
  | [], acc => .ok acc
  | x :: rest, acc => do
    let g2 := removeNode g x
    let _ ← validate_graph g2 start goal
    let (alt?, altc) ← dijkstra_pathfinding g2 start goal
    match alt? with
    | none => nodeAltLoop g start goal maxCost rest acc
    | some ap =>
      if ap.isEmpty then nodeAltLoop g start goal maxCost rest acc
      else if altc ≤ maxCost then
        if ap ∈ acc.map Prod.fst then nodeAltLoop g start goal maxCost rest acc
        else nodeAltLoop g start goal maxCost rest (acc ++ [(ap, altc)])
      else nodeAltLoop g start goal maxCost rest acc

/-- Final deduplication of find_all_paths: entries are kept in order, skipping
any whose joined-string rendering was already seen. -/
def dedupByJoin : List (List Node × WithTop ℚ) → List String → List (List Node × WithTop ℚ)
  | [], _ => []
  | (p, c) :: rest, seen =>
    if joinPath p ∈ seen then dedupByJoin rest seen
    else (p, c) :: dedupByJoin rest (joinPath p :: seen)

/-- Alternative-path search of the agent (modified Yen-style exploration):
shortest path first, then edge-removal candidates sorted by cost and merged,
then node-removal results, then deduplication by joined string and a final
stable sort ascending by cost. -/
def find_all_paths (g : Graph) (start goal : Node) (maxCost : WithTop ℚ) :
    Except Err (List (List Node × WithTop ℚ)) := do
  let (sp?, sc) ← dijkstra_pathfinding g start goal
  match sp? with
  | none => .ok []
  | some sp =>
    if sp.isEmpty then .ok []
    else if maxCost < sc then .ok []
    else do
      let cands ← edgeCandidates g start goal maxCost sp (sp.zip sp.tail) []
      let afterEdges := appendNew [(sp, sc)] (sortByCost cands)
      let allp ← nodeAltLoop g start goal maxCost ((sp.drop 1).dropLast) afterEdges
      .ok (sortByCost (dedupByJoin allp []))

/-- Result dictionary of get_path_details. The message field is only present
in the failure dictionary of the source. -/
structure PathDetails where
  best_path : List Node
  best_cost : WithTop ℚ
  all_alternative_paths : List (List Node × WithTop ℚ)
  start_node : Node
  goal_node : Node
  algorithm_used : String
  success : Bool
  message : Option String
  deriving DecidableEq, Repr

/-- View of a WithTop value as the underlying Option, for pattern matching. -/
def topView (c : WithTop ℚ) : Option ℚ := c

/-- Comprehensive path details: plan with the selected algorithm, then, when a
path exists with finite cost, collect alternatives up to twice the best cost;
otherwise return the structured failure dictionary. -/
def get_path_details (g : Graph) (start goal : Node) (heuristic : Option (Node → Node → ℚ))
    (algorithm : PathfindingAlgorithm) : Except Err PathDetails := do
  let (bps?, bc) ← plan g start goal heuristic algorithm
  let failResult : PathDetails :=
    { best_path := [], best_cost := ⊤, all_alternative_paths := []
      start_node := start, goal_node := goal, algorithm_used := algorithm.token
      success := false
      message := some ("No path found from " ++ start ++ " to " ++ goal) }
  match bps? with
  | none => .ok failResult
  | some s =>
    match topView bc with
    | none => .ok failResult
    | some q => do
      let alts ← find_all_paths g start goal ((q * 2 : ℚ) : WithTop ℚ)
      .ok { best_path := s.splitOn " -> ", best_cost := bc, all_alternative_paths := alts
            start_node := start, goal_node := goal, algorithm_used := algorithm.token
            success := true, message := none }

/-- A probabilistic outcome of an action: a probability and a utility. The
source represents it as a dict with exactly the keys probability and utility;
the structure makes both always present, so the invalid-structure branch of
validate_actions cannot fire. -/
structure Outcome where
  probability : ℚ
  utility : ℚ
  deriving DecidableEq, Repr

/-- Actions of the utility-based agent: a dict from action name to outcome
list, in insertion order. -/
abbrev Actions := List (String × List Outcome)

/-- Decision strategy selector, mirroring the DecisionStrategy enum. -/
inductive DecisionStrategy
  | meu
  | minimax
  | evk
  deriving DecidableEq, Repr

/-- Validation run by the utility-agent constructor: an action with no
outcomes, or an outcome probability outside the unit interval, raises
ValueError. The probability-sum check only prints a warning. -/
def validate_actions : Actions → Except Err Unit
  | [] => .ok ()
  | (_, outs) :: rest =>
    if outs.isEmpty then .error .valueError
    else if outs.all (fun o => decide (0 ≤ o.probability) && decide (o.probability ≤ 1)) then
      validate_actions rest
    else .error .valueError

/-- Expected utility of an outcome list: sum of probability times utility,
the utility transformed first when a custom utility function is supplied. -/
def calculate_expected_utility (uf : Option (ℚ → ℚ)) (outs : List Outcome) : ℚ :=
  outs.foldl
    (fun acc o =>
      acc + o.probability * (match uf with | none => o.utility | some f => f o.utility)) 0

/-- First maximum of an association list by value, as Python max with a key
function returns the first key attaining the maximum. -/
def maxGo (best : String × ℚ) : List (String × ℚ) → String × ℚ
  | [] => best
  | y :: rest => if best.2 < y.2 then maxGo y rest else maxGo best rest

/-- Minimum utility of an outcome list; Python min raises ValueError on an
empty sequence. -/
def minUtil : List Outcome → Except Err ℚ
  | [] => .error .valueError
  | o :: rest => .ok (rest.foldl (fun m x => if x.utility < m then x.utility else m) o.utility)

/-- Worst-case (minimum) utility per action, in dict order. -/
def worstOutcomes : Actions → Except Err (List (String × ℚ))
  | [] => .ok []
  | (a, outs) :: rest => do
    let m ← minUtil outs
    let r ← worstOutcomes rest
    .ok ((a, m) :: r)

/-- Minimax decision: the action whose worst-case utility is largest; Python
max raises ValueError when the actions dict is empty. -/
def calculate_minimax_decision (acts : Actions) : Except Err (String × ℚ) := do
  let worst ← worstOutcomes acts
  match worst with
  | [] => .error .valueError
  | x :: rest => .ok (maxGo x rest)

/-- Strategy dispatch of the utility-based agent, returning the chosen action
name and its value. The additional-info dict the source also returns contains
only the strategy name and recomputations of the returned values, and is not
modelled. The EVK branch takes a float square root, which has no rational
embedding; no claim depends on it, and running it here returns a dedicated
error marker. -/
def decide (acts : Actions) (uf : Option (ℚ → ℚ)) (strategy : DecisionStrategy) :
    Except Err (String × WithBot ℚ) :=
  match strategy with
  | .meu =>
    match acts.map (fun a => (a.1, calculate_expected_utility uf a.2)) with
    | [] => .ok ("No valid actions", ⊥)
    | x :: rest =>
      let best := maxGo x rest
      .ok (best.1, (best.2 : WithBot ℚ))
  | .minimax =>
    match calculate_minimax_decision acts with
    | .error e => .error e
    | .ok (a, v) => .ok (a, (v : WithBot ℚ))
  | .evk => .error .sqrtNotModelled

/-- Optional path-evaluation factors of the hybrid agent, mirroring the two
keys the source reads from the factors dict. -/
structure EvalFactors where
  path_length_factor : Option ℚ
  node_penalties : Option (List (Node × ℚ))

/-- Truthiness of the factors dict: it has at least one of its keys. -/
def factorsTruthy (f : EvalFactors) : Bool :=
  f.path_length_factor.isSome || f.node_penalties.isSome

/-- Lookup in the node-penalties dict. -/
def lookupPen (l : List (Node × ℚ)) (n : Node) : Option ℚ :=
  match l with
  | [] => none
  | (k, v) :: rest => if k = n then some v else lookupPen rest n

/-- Adjustment of the success-case utility by the caller-supplied factors: a
per-length term, then one penalty per path node found in the penalties dict. -/
def applyEvaluationFactors (f : EvalFactors) (base : ℚ) (path : List Node) : ℚ :=
  let a1 :=
    match f.path_length_factor with
    | none => base
    | some plf => base + (path.length : ℚ) * plf
  match f.node_penalties with
  | none => a1
  | some np =>
    path.foldl (fun acc n => match lookupPen np n with | some v => acc + v | none => acc) a1

/-- Complication probability of a path with the given node count:
min(0.1 + 0.02 * (max(len - 1, 1) - 1), 0.4). -/
def complicationProb (len : Nat) : ℚ :=
  min (1 / 10 + 1 / 50 * ((max (len - 1) 1 - 1 : ℕ) : ℚ)) (2 / 5)

/-- The two outcomes the hybrid agent synthesizes for one candidate path:
a normal outcome with probability max(1 - complicationProb, 0) and utility
minus cost (adjusted by the factors when the factors dict is truthy), and a
complication outcome with probability complicationProb and utility minus cost
times 1.5. -/
def pathOutcomes (f : EvalFactors) (path : List Node) (base_cost : ℚ) : List Outcome :=
  let cp := complicationProb path.length
  let sp := max (1 - cp) 0
  let bu := -base_cost
  if factorsTruthy f then
    [{ probability := sp, utility := applyEvaluationFactors f bu path },
     { probability := cp, utility := bu * (3 / 2) }]
  else
    [{ probability := sp, utility := bu },
     { probability := cp, utility := bu * (3 / 2) }]

/-- Action name the hybrid agent assigns to the i-th candidate path. -/
def pathName (i : Nat) (p : List Node) : String :=
  "Path_" ++ toString (i + 1) ++ "_(" ++ joinPath p ++ ")"

/-- Action dict built by evaluate_paths_with_utility: one action per candidate
path, in order, holding that path and its two synthesized outcomes. -/
def evaluate_actions (f : EvalFactors) (paths : List (List Node × ℚ)) : Actions :=
  paths.enum.map (fun ip => (pathName ip.1 ip.2.1, pathOutcomes f ip.2.1 ip.2.2))

/-- Learning styles of the enhanced advisor. -/
inductive LearningStyle
  | fastest
  | easiest
  | balanced
  | challenging
  deriving DecidableEq, Repr

/-- Numeric attributes of a course. The source stores them in a dict and reads
each through .get with default 0; the catalog rows always carry all four. -/
structure CourseAttrs where
  difficulty : ℚ
  time_hours : ℚ
  utility : ℚ
  prerequisites_count : ℚ
  deriving DecidableEq, Repr

/-- The four weighting coefficients. -/
structure WeightProfile where
  time : ℚ
  difficulty : ℚ
  utility : ℚ
  prereq : ℚ
  deriving DecidableEq, Repr

/-- A caller-supplied weight override: any subset of the four keys. -/
structure WOverride where
  time : Option ℚ
  difficulty : Option ℚ
  utility : Option ℚ
  prereq : Option ℚ
  deriving DecidableEq, Repr

/-- Course catalog (course_attributes) and prerequisite relation
(course_prerequisites), as association lists in insertion order. The embedding
is parameterized over them; the source reads them from fixed instance data. -/
abbrev Catalog := List (Node × CourseAttrs)

/-- Prerequisite dict: course name to prerequisite list. -/
abbrev Prereqs := List (Node × List Node)

/-- Style default weight table of _build_weighted_graph. -/
def styleDefaults : LearningStyle → WeightProfile
  | .fastest => { time := 7 / 10, difficulty := 2 / 10, utility := 1 / 10, prereq := 0 }
  | .easiest => { time := 2 / 10, difficulty := 6 / 10, utility := 2 / 10, prereq := 0 }
  | .challenging => { time := 2 / 10, difficulty := 2 / 10, utility := 5 / 10, prereq := 1 / 10 }
  | .balanced => { time := 4 / 10, difficulty := 3 / 10, utility := 2 / 10, prereq := 1 / 10 }

/-- Merge of a caller override over the style defaults, key by key. -/
def baseWeights (style : LearningStyle) (cw : Option WOverride) : WeightProfile :=
  match cw with
  | none => styleDefaults style
  | some o =>
    let d := styleDefaults style
    { time := o.time.getD d.time, difficulty := o.difficulty.getD d.difficulty
      utility := o.utility.getD d.utility, prereq := o.prereq.getD d.prereq }

/-- Normalization of the merged weights to sum 1, with the all-zero fallback
profile of the source. -/
def normWeights (bw : WeightProfile) : WeightProfile :=
  let total := bw.time + bw.difficulty + bw.utility + bw.prereq
  if total = 0 then { time := 0, difficulty := 1, utility := 0, prereq := 0 }
  else { time := bw.time / total, difficulty := bw.difficulty / total
         utility := bw.utility / total, prereq := bw.prereq / total }

/-- Catalog lookup with the empty-dict default of attrs.get(course, dict()):
a missing course yields all-zero components. -/
def lookupAttrs (cat : Catalog) (c : Node) : CourseAttrs :=
  match cat with
  | [] => { difficulty := 0, time_hours := 0, utility := 0, prerequisites_count := 0 }
  | (k, a) :: rest => if k = c then a else lookupAttrs rest c

/-- The raw combined weight of an edge into the given course: the convex
combination of time in tens of hours, difficulty, inverse utility and
prerequisite count under the normalized weights. -/
def rawCombination (nw : WeightProfile) (cat : Catalog) (course : Node) : ℚ :=
  let a := lookupAttrs cat course
  nw.time * (a.time_hours / 10) + nw.difficulty * a.difficulty
    + nw.utility * (10 - a.utility) + nw.prereq * a.prerequisites_count

/-- Final edge weight: the raw combination, or max(difficulty, 1) when the
combination is not positive (the degenerate-weight guard of the source). -/
def edgeWeight (nw : WeightProfile) (cat : Catalog) (course : Node) : ℚ :=
  let w := rawCombination nw cat course
  if w ≤ 0 then max (lookupAttrs cat course).difficulty 1 else w

/-- All course names: union of the catalog keys and the prerequisite keys.
The source iterates a Python set here, whose order is unspecified; the claims
proved below do not depend on the key order. -/
def allCourses (cat : Catalog) (pre : Prereqs) : List Node :=
  (cat.map Prod.fst ++ pre.map Prod.fst).dedup

/-- Flat list of the weighted edges _build_weighted_graph appends: one edge
prerequisite -> course for every prerequisite pair whose prerequisite is a
known course, weighted by edgeWeight of the course. -/
def flatWeightedEdges (nw : WeightProfile) (cat : Catalog) (pre : Prereqs) (ks : List Node) :
    List (Node × Node × ℚ) :=
  pre.flatMap (fun cp =>
    cp.2.filterMap (fun pr =>
      if pr ∈ ks then some (pr, cp.1, edgeWeight nw cat cp.1) else none))

/-- The weighted graph of _build_weighted_graph: every known course is a key,
and each key holds its outgoing appended edges in append order. -/
def buildWeightedGraph (cat : Catalog) (pre : Prereqs) (style : LearningStyle)
    (cw : Option WOverride) : Graph :=
  let nw := normWeights (baseWeights style cw)
  let ks := allCourses cat pre
  let edges := flatWeightedEdges nw cat pre ks
  ks.map (fun k => (k, (edges.filter (fun e => e.1 == k)).map (fun e => (e.2.1, e.2.2))))

/-! Invariants of the Dijkstra loop, used to prove partial correctness. -/

/-- Frontier property of a set W of fully relaxed visited nodes: every edge
out of a node of W reaches a visited node, or a node whose recorded distance
is at most the distance of the source of the edge plus the edge weight. -/
def Frontier (g : Graph) (st : DState) (W : List Node) : Prop :=
  ∀ x ∈ W, ∀ v w, EdgeIn g x v w →
    v ∈ st.visited ∨ ∀ qx : ℚ, st.dist x = some ((qx : ℚ) : WithTop ℚ) →
      ∃ dv, st.dist v = some dv ∧ dv ≤ ((qx + w : ℚ) : WithTop ℚ)

/-- Invariant of the Dijkstra loop state, parameterized by the set W of
visited nodes whose outgoing edges have been fully relaxed (all visited nodes
except, transiently, the one being expanded). -/
structure GInv (g : Graph) (start : Node) (W : List Node) (st : DState) : Prop where
  wsub : ∀ n ∈ W, n ∈ st.visited
  pstart : st.dist start = some ((0 : ℚ) : WithTop ℚ)
  qnn : ∀ e ∈ st.queue, (0 : ℚ) ≤ e.1
  qub : ∀ e ∈ st.queue, ∃ dn, st.dist e.2 = some dn ∧ dn ≤ ((e.1 : ℚ) : WithTop ℚ)
  qpath : ∀ e ∈ st.queue, ∃ p, ReachP g start p e.2 e.1
  qcover : ∀ n, n ∉ st.visited → ∀ q : ℚ,
    st.dist n = some ((q : ℚ) : WithTop ℚ) → (q, n) ∈ st.queue
  vopt : ∀ n ∈ st.visited, ∃ q : ℚ, st.dist n = some ((q : ℚ) : WithTop ℚ) ∧
    (∃ p, ReachP g start p n q) ∧ ∀ p c, ReachP g start p n c → q ≤ c
  fr : Frontier g st W
  pv : ∀ n m, st.prev n = some (some m) → m ∈ st.visited ∧
    ∃ qn qm w : ℚ, st.dist n = some ((qn : ℚ) : WithTop ℚ) ∧
      st.dist m = some ((qm : ℚ) : WithTop ℚ) ∧ EdgeIn g m n w ∧ qn = qm + w

/-- Facts holding of the state the Dijkstra loop returns: the optimality data
of the visited set, the queue cover of finite unvisited distances, the
predecessor decomposition, and that the loop stopped by visiting the goal or
by exhausting the queue. -/
structure PostInv (g : Graph) (start goal : Node) (st : DState) : Prop where
  pstart : st.dist start = some ((0 : ℚ) : WithTop ℚ)
  vopt : ∀ n ∈ st.visited, ∃ q : ℚ, st.dist n = some ((q : ℚ) : WithTop ℚ) ∧
    (∃ p, ReachP g start p n q) ∧ ∀ p c, ReachP g start p n c → q ≤ c
  qcover : ∀ n, n ∉ st.visited → ∀ q : ℚ,
    st.dist n = some ((q : ℚ) : WithTop ℚ) → (q, n) ∈ st.queue
  pv : ∀ n m, st.prev n = some (some m) → m ∈ st.visited ∧
    ∃ qn qm w : ℚ, st.dist n = some ((qn : ℚ) : WithTop ℚ) ∧
      st.dist m = some ((qm : ℚ) : WithTop ℚ) ∧ EdgeIn g m n w ∧ qn = qm + w
  final : goal ∈ st.visited ∨ st.queue = []

/-! Concrete inputs used by the claims. -/

/-- Demo graph of the source (MAP_ROUTES in the goal-based and hybrid demos). -/
def demoG : Graph :=
  [("A", [("B", 3), ("C", 5), ("E", 10)]),
   ("B", [("D", 4), ("E", 2)]),
   ("C", [("D", 2)]),
   ("D", [("F", 3)]),
   ("E", [("F", 1)]),
   ("F", [])]

/-- A graph with a dangling edge target: B is referenced but is not a key. -/
def danglingG : Graph := [("A", [("B", 1)]), ("C", [])]

/-- A graph whose goal G is unreachable from S and which holds a dangling
edge target X. -/
def unreachDangG : Graph := [("S", [("X", 1)]), ("G", [])]

/-- Outcomes of the Conservative action of the concrete decision scenario. -/
def consOuts : List Outcome :=
  [{ probability := 8 / 10, utility := 50 }, { probability := 2 / 10, utility := 30 }]

/-- Outcomes of the Aggressive action of the concrete decision scenario. -/
def aggrOuts : List Outcome :=
  [{ probability := 4 / 10, utility := 150 }, { probability := 4 / 10, utility := 10 },
   { probability := 2 / 10, utility := -100 }]

/-- The concrete two-action decision scenario of the spec. -/
def scenario : Actions := [("Conservative", consOuts), ("Aggressive", aggrOuts)]

/-- A graph with a negative edge weight on which the eager goal test of
Dijkstra returns a suboptimal path. -/
def negG : Graph := [("S", [("G", 0), ("A", 10)]), ("A", [("G", -100)]), ("G", [])]

/-- A three-node chain used to exhibit the node-removal behaviour. -/
def chainG : Graph := [("A", [("B", 1)]), ("B", [("C", 1)]), ("C", [])]

/-- A three-node graph with a direct edge and a two-edge detour. -/
def detourG : Graph := [("S", [("G", 1), ("A", 1)]), ("A", [("G", 1)]), ("G", [])]

/-- Modelled from the spec: the node-removal copy as the spec describes it,
with exactly the removed node's outgoing edges dropped and every other edge,
including edges whose target is the removed node, retained unchanged. The
code under test instead builds removeNode, which also drops incoming edges. -/
def removeNodeSpec (g : Graph) (x : Node) : Graph :=
  g.map (fun kv => (kv.1, if kv.1 = x then [] else kv.2))

end LPA

deriving instance DecidableEq for Except

namespace LPA

/-! Helper lemmas. -/

theorem ex_bind_ok {α β : Type} (a : α) (f : α → Except Err β) :
    (Except.ok a : Except Err α) >>= f = f a := rfl

theorem ex_bind_err {α β : Type} (e : Err) (f : α → Except Err β) :
    (Except.error e : Except Err α) >>= f = .error e := rfl

theorem loopFuel_succ (g : Graph) :
    loopFuel g = (edgeCount g + (keysOf g).length + 1) + 1 := rfl

theorem reconFuel_succ (g : Graph) :
    (keysOf g).length + 2 = ((keysOf g).length + 1) + 1 := rfl

theorem popMin_single {α : Type} (ltb : α → α → Bool) (x : α) :
    popMin ltb [x] = some (x, []) := rfl

/-- Every node reachable from S in unreachDangG is S or X, so G is not. -/
theorem unreachDangG_reach (p : List Node) (c : ℚ) (t : Node)
    (h : ReachP unreachDangG "S" p t c) : t = "S" ∨ t = "X" := by
  induction h with
  | refl => exact Or.inl rfl
  | step hr he ih =>
    rcases he with ⟨es, hes, hmem⟩
    rcases ih with h1 | h1 <;> subst h1 <;>
      simp [unreachDangG, lookupG] at hes <;> subst hes <;> simp at hmem
    exact Or.inr hmem.1

/-! Claim theorems. -/

/-- C2 (counterexample): in the concrete scenario the expected utility of the
Aggressive action is 44, not 30 as the claim states. -/
theorem C2_counterexample :
    calculate_expected_utility none aggrOuts = 44 ∧
    ¬ calculate_expected_utility none aggrOuts = 30 := by
  constructor
  · with_unfolding_all decide
  · with_unfolding_all decide

/-- C2 (amended): in the concrete scenario the action validation passes, MEU
selects Conservative with value 46 against the Aggressive expected value 44,
and minimax selects Conservative, whose worst case 30 exceeds the Aggressive
worst case of minus 100. -/
theorem C2_amended :
    validate_actions scenario = .ok () ∧
    LPA.decide scenario none .meu = .ok ("Conservative", ((46 : ℚ) : WithBot ℚ)) ∧
    calculate_expected_utility none consOuts = 46 ∧
    calculate_expected_utility none aggrOuts = 44 ∧
    LPA.decide scenario none .minimax = .ok ("Conservative", ((30 : ℚ) : WithBot ℚ)) ∧
    minUtil consOuts = .ok 30 ∧ minUtil aggrOuts = .ok (-100) ∧ (-100 : ℚ) < 30 := by
  refine ⟨?_, ?_, ?_, ?_, ?_, ?_, ?_, ?_⟩ <;> with_unfolding_all decide

/-- C3 (code bug): on a graph with a dangling edge target, construction-time
validation passes (the dangling target only triggers a printed warning), yet
Dijkstra raises a KeyError while relaxing the dangling edge instead of
completing with a (path, cost) result. -/
theorem C3_dangling_crash :
    validate_graph danglingG "A" "C" = .ok () ∧
    ("B" ∉ keysOf danglingG) ∧
    EdgeIn danglingG "A" "B" 1 ∧
    dijkstra_pathfinding danglingG "A" "C" = .error .keyError := by
  refine ⟨by with_unfolding_all decide, by with_unfolding_all decide,
    ⟨[("B", 1)], by with_unfolding_all decide, by simp⟩, by with_unfolding_all decide⟩

/-- C5 (code bug): on a graph whose goal G is unreachable from the start S
but which holds a dangling edge target, Dijkstra and A* (with the admissible
zero heuristic) raise a KeyError instead of returning the no-path sentinel,
and get_path_details propagates the error instead of returning the structured
failure; BFS alone returns the sentinel. -/
theorem C5_unreachable_crash :
    (∀ p c, ¬ ReachP unreachDangG "S" p "G" c) ∧
    validate_graph unreachDangG "S" "G" = .ok () ∧
    dijkstra_pathfinding unreachDangG "S" "G" = .error .keyError ∧
    astar_pathfinding unreachDangG (some (fun _ _ => 0)) "S" "G" = .error .keyError ∧
    bfs_pathfinding unreachDangG "S" "G" = .ok (none, ⊤) ∧
    get_path_details unreachDangG "S" "G" none .dijkstra = .error .keyError := by
  refine ⟨?_, by with_unfolding_all decide, by with_unfolding_all decide,
    by with_unfolding_all decide, by with_unfolding_all decide, by with_unfolding_all decide⟩
  intro p c h
  rcases unreachDangG_reach p c "G" h with h1 | h1 <;> simp at h1

/-- C7: every edge weight of the weighted graph is strictly positive, for
every catalog, prerequisite relation, learning style and (possibly partial)
override: the weight equals the normalized combination when that combination
is positive, and max(difficulty, 1), which is at least 1, otherwise. -/
theorem C7_weights_positive (cat : Catalog) (pre : Prereqs) (style : LearningStyle)
    (cw : Option WOverride) (kv : Node × List (Node × ℚ)) (e : Node × ℚ)
    (hkv : kv ∈ buildWeightedGraph cat pre style cw) (he : e ∈ kv.2) :
    0 < e.2 ∧
    e.2 = edgeWeight (normWeights (baseWeights style cw)) cat e.1 ∧
    ((0 < rawCombination (normWeights (baseWeights style cw)) cat e.1 ∧
        e.2 = rawCombination (normWeights (baseWeights style cw)) cat e.1) ∨
     (rawCombination (normWeights (baseWeights style cw)) cat e.1 ≤ 0 ∧
        e.2 = max (lookupAttrs cat e.1).difficulty 1 ∧ 1 ≤ e.2)) := by
  simp only [buildWeightedGraph, List.mem_map] at hkv
  rcases hkv with ⟨k, hk, rfl⟩
  simp only [List.mem_map, List.mem_filter] at he
  rcases he with ⟨fe, ⟨hfe, hfek⟩, rfl⟩
  simp only [flatWeightedEdges, List.mem_flatMap, List.mem_filterMap] at hfe
  rcases hfe with ⟨cp, hcp, pr, hpr, hsome⟩
  by_cases hin : pr ∈ allCourses cat pre
  · simp only [hin, if_pos] at hsome
    cases hsome
    have hdic : 0 < rawCombination (normWeights (baseWeights style cw)) cat cp.1 ∨
        rawCombination (normWeights (baseWeights style cw)) cat cp.1 ≤ 0 :=
      (lt_or_ge 0 _).imp id id
    constructor
    · simp only [edgeWeight]
      split
      · exact lt_of_lt_of_le one_pos (le_max_right _ _)
      · rename_i hw; exact lt_of_not_ge hw
    constructor
    · rfl
    rcases hdic with hpos | hneg
    · left
      refine ⟨hpos, ?_⟩
      simp only [edgeWeight, if_neg (not_le.mpr hpos)]
    · right
      refine ⟨hneg, ?_, ?_⟩
      · simp only [edgeWeight, if_pos hneg]
      · simp only [edgeWeight, if_pos hneg]
        exact le_trans (le_refl 1) (le_max_right _ _)
  · simp [hin] at hsome

/-- C7 witness: a concrete two-course catalog with one prerequisite pair. -/
theorem C7_witness :
    0 < ((18 : ℚ) / 5) ∧
    (18 : ℚ) / 5 = edgeWeight
      (normWeights (baseWeights .balanced none))
      [("X", ⟨5, 30, 6, 1⟩), ("Y", ⟨3, 10, 8, 0⟩)] "X" ∧
    ((0 < rawCombination (normWeights (baseWeights .balanced none))
        [("X", ⟨5, 30, 6, 1⟩), ("Y", ⟨3, 10, 8, 0⟩)] "X" ∧
      (18 : ℚ) / 5 = rawCombination (normWeights (baseWeights .balanced none))
        [("X", ⟨5, 30, 6, 1⟩), ("Y", ⟨3, 10, 8, 0⟩)] "X") ∨
     (rawCombination (normWeights (baseWeights .balanced none))
        [("X", ⟨5, 30, 6, 1⟩), ("Y", ⟨3, 10, 8, 0⟩)] "X" ≤ 0 ∧
      (18 : ℚ) / 5 = max (lookupAttrs [("X", ⟨5, 30, 6, 1⟩), ("Y", ⟨3, 10, 8, 0⟩)] "X").difficulty 1 ∧
      1 ≤ ((18 : ℚ) / 5))) := by
  have h := C7_weights_positive [("X", ⟨5, 30, 6, 1⟩), ("Y", ⟨3, 10, 8, 0⟩)]
    [("X", ["Y"])] .balanced none ("Y", [("X", (18 : ℚ) / 5)]) ("X", (18 : ℚ) / 5)
    (by with_unfolding_all decide) (by with_unfolding_all decide)
  exact h

/-- C8: constructing the agent with a start or goal that is not a key of the
graph is a ValueError from the constructor itself; no agent value exists, so
no search method can run on such inputs. -/
theorem C8_constructor_validates (g : Graph) (start goal : Node)
    (h : Option (Node → Node → ℚ)) (alg : PathfindingAlgorithm)
    (hbad : start ∉ keysOf g ∨ goal ∉ keysOf g) :
    mkAgent g start goal h alg = .error .valueError := by
  unfold mkAgent validate_graph
  rcases hbad with h1 | h1
  · rw [if_neg h1]; rfl
  · by_cases h2 : start ∈ keysOf g
    · rw [if_pos h2, if_neg h1]; rfl
    · rw [if_neg h2]; rfl

/-- C8 witness: a goal absent from a one-node graph. -/
theorem C8_witness :
    ("Z" ∉ keysOf [("A", ([] : List (Node × ℚ)))] ∨ True) ∧
    mkAgent [("A", [])] "A" "Z" none .dijkstra = .error .valueError := by
  constructor
  · exact Or.inl (by with_unfolding_all decide)
  · exact C8_constructor_validates [("A", [])] "A" "Z" none .dijkstra
      (Or.inr (by with_unfolding_all decide))

/-- The complication probability never exceeds 0.4. -/
theorem complicationProb_le (n : Nat) : complicationProb n ≤ 2 / 5 :=
  min_le_right _ _

/-- The complication probability is nondecreasing in the node count. -/
theorem complicationProb_mono {n m : Nat} (h : n ≤ m) :
    complicationProb n ≤ complicationProb m := by
  unfold complicationProb
  apply min_le_min _ (le_refl _)
  have hnat : (max (n - 1) 1 - 1 : ℕ) ≤ (max (m - 1) 1 - 1 : ℕ) :=
    Nat.sub_le_sub_right (max_le_max (Nat.sub_le_sub_right h 1) (le_refl 1)) 1
  have hq : ((max (n - 1) 1 - 1 : ℕ) : ℚ) ≤ ((max (m - 1) 1 - 1 : ℕ) : ℚ) := by
    exact_mod_cast hnat
  nlinarith

/-- The complication probability is below 1, so the clamped success
probability max(1 - p, 0) is exactly 1 - p. -/
theorem successProb_eq (n : Nat) :
    max (1 - complicationProb n) 0 = 1 - complicationProb n := by
  have h := complicationProb_le n
  apply max_eq_left
  nlinarith

/-- C9: every action the hybrid planner synthesizes for a candidate path with
base cost c and node count n holds exactly two outcomes: a normal outcome
with probability 1 - p and utility -c (further adjusted by the caller
factors when present), and a complication outcome with probability p and
utility -1.5 c, where p = min(0.1 + 0.02 (max(n - 1, 1) - 1), 0.4) is capped
at 0.4 and nondecreasing in the path length. -/
theorem C9_outcome_synthesis :
    (∀ (f : EvalFactors) (paths : List (List Node × ℚ)) (a : String) (outs : List Outcome),
      (a, outs) ∈ evaluate_actions f paths →
      ∃ p c, (p, c) ∈ paths ∧
        outs =
          [{ probability := 1 - complicationProb p.length
             utility := if factorsTruthy f then applyEvaluationFactors f (-c) p else -c },
           { probability := complicationProb p.length, utility := -c * (3 / 2) }]) ∧
    (∀ n, complicationProb n =
      min (1 / 10 + 1 / 50 * ((max (n - 1) 1 - 1 : ℕ) : ℚ)) (2 / 5)) ∧
    (∀ n, complicationProb n ≤ 2 / 5) ∧
    (∀ n m, n ≤ m → complicationProb n ≤ complicationProb m) := by
  refine ⟨?_, fun n => rfl, complicationProb_le, fun n m h => complicationProb_mono h⟩
  intro f paths a outs hmem
  simp only [evaluate_actions, List.mem_map] at hmem
  rcases hmem with ⟨ip, hip, heq⟩
  refine ⟨ip.2.1, ip.2.2, List.getElem?_mem (List.mem_enum_iff_getElem?.mp hip), ?_⟩
  have houts : outs = pathOutcomes f ip.2.1 ip.2.2 := congrArg Prod.snd heq |>.symm
  rw [houts]
  simp only [pathOutcomes]
  rw [successProb_eq]
  split
  · rfl
  · rfl

/-- C9 witness: the single candidate path A, B with cost 5 and no factors. -/
theorem C9_witness :
    ∃ p c, (p, c) ∈ [((["A", "B"] : List Node), (5 : ℚ))] ∧
      [({ probability := 9 / 10, utility := -5 } : Outcome),
       { probability := 1 / 10, utility := -5 * (3 / 2) }] =
        [{ probability := 1 - complicationProb p.length
           utility := if factorsTruthy ⟨none, none⟩
             then applyEvaluationFactors ⟨none, none⟩ (-c) p else -c },
         { probability := complicationProb p.length, utility := -c * (3 / 2) }] := by
  have h := C9_outcome_synthesis.1 ⟨none, none⟩ [((["A", "B"] : List Node), (5 : ℚ))]
    (pathName 0 ["A", "B"])
    [{ probability := 9 / 10, utility := -5 }, { probability := 1 / 10, utility := -5 * (3 / 2) }]
    (by with_unfolding_all decide)
  exact h

/-- C10: with start equal to goal, construction succeeds and every algorithm
returns the single-node path with cost 0 (the heuristic may be anything). -/
theorem C10_start_eq_goal (g : Graph) (s : Node) (h : Node → Node → ℚ)
    (hs : s ∈ keysOf g) :
    mkAgent g s s (some h) .dijkstra =
      .ok { routes := g, start := s, goal := s, heuristic := some h,
            algorithm := .dijkstra } ∧
    dijkstra_pathfinding g s s = .ok (some [s], ((0 : ℚ) : WithTop ℚ)) ∧
    astar_pathfinding g (some h) s s = .ok (some [s], ((0 : ℚ) : WithTop ℚ)) ∧
    bfs_pathfinding g s s = .ok (some [s], ((0 : ℚ) : WithTop ℚ)) := by
  refine ⟨?_, ?_, ?_, ?_⟩
  · simp [mkAgent, validate_graph, hs]
    rfl
  · rw [dijkstra_pathfinding, loopFuel_succ, dijkstraLoop]
    simp only [initState, popMin_single, List.not_mem_nil, if_false, eq_self_iff_true,
      if_true, ite_true, ite_false, ex_bind_ok]
    rw [reconFuel_succ, reconstruct]
    simp [hs, ex_bind_ok]
  · rw [astar_pathfinding]
    rw [show astarLoop g h s (loopFuel g) (initAState g h s s) =
        astarLoop g h s ((edgeCount g + (keysOf g).length + 1) + 1) (initAState g h s s) from rfl]
    rw [astarLoop]
    simp only [initAState, popMin_single, List.not_mem_nil, if_false, eq_self_iff_true,
      if_true, ite_true, ite_false, ex_bind_ok]
    rw [reconFuel_succ, reconstruct]
    simp [hs, ex_bind_ok]
  · rw [bfs_pathfinding, loopFuel_succ, bfsLoop]
    simp only [eq_self_iff_true, if_true, ite_true, ex_bind_ok]
    rw [reconFuel_succ, reconstruct]
    simp [hs, ex_bind_ok]

/-- C10 witness: the one-node graph with start and goal A. -/
theorem C10_witness :
    ("A" ∈ keysOf [("A", ([] : List (Node × ℚ)))]) ∧
    dijkstra_pathfinding [("A", [])] "A" "A" = .ok (some ["A"], ((0 : ℚ) : WithTop ℚ)) ∧
    astar_pathfinding [("A", [])] (some (fun _ _ => 0)) "A" "A" =
      .ok (some ["A"], ((0 : ℚ) : WithTop ℚ)) ∧
    bfs_pathfinding [("A", [])] "A" "A" = .ok (some ["A"], ((0 : ℚ) : WithTop ℚ)) := by
  have h := C10_start_eq_goal [("A", [])] "A" (fun _ _ => 0) (by with_unfolding_all decide)
  exact ⟨by with_unfolding_all decide, h.2.1, h.2.2.1, h.2.2.2⟩

/-! Basic lemmas about graphs, paths and the heap model, leading to the
partial-correctness proof of the embedded Dijkstra. -/

theorem lookupG_mem {g : Graph} {u : Node} {es : List (Node × ℚ)}
    (h : lookupG g u = some es) : (u, es) ∈ g := by
  induction g with
  | nil => simp [lookupG] at h
  | cons kv rest ih =>
    rw [lookupG] at h
    by_cases hk : kv.1 = u
    · rw [if_pos hk] at h
      cases h
      rw [← hk]
      exact List.mem_cons_self _ _
    · rw [if_neg hk] at h
      exact List.mem_cons_of_mem _ (ih h)

theorem edgeIn_nonneg {g : Graph} (hnn : NonnegWeights g) {u v : Node} {w : ℚ}
    (h : EdgeIn g u v w) : 0 ≤ w := by
  rcases h with ⟨es, hes, hmem⟩
  exact hnn (u, es) (lookupG_mem hes) (v, w) hmem

theorem reachP_head {g : Graph} {s : Node} {p : List Node} {n : Node} {c : ℚ}
    (h : ReachP g s p n c) : p.head? = some s := by
  induction h with
  | refl => rfl
  | step hr he ih =>
    rw [List.head?_append]
    rw [ih]
    rfl

theorem reachP_ne_nil {g : Graph} {s : Node} {p : List Node} {n : Node} {c : ℚ}
    (h : ReachP g s p n c) : p ≠ [] := by
  intro hnil
  have := reachP_head h
  rw [hnil] at this
  simp at this

theorem reachP_getLast {g : Graph} {s : Node} {p : List Node} {n : Node} {c : ℚ}
    (h : ReachP g s p n c) : p.getLast? = some n := by
  induction h with
  | refl => rfl
  | step hr he ih => simp [List.getLast?_concat]

theorem reachP_chain {g : Graph} {s : Node} {p : List Node} {n : Node} {c : ℚ}
    (h : ReachP g s p n c) : List.Chain' (fun a b => ∃ w, EdgeIn g a b w) p := by
  induction h with
  | refl => simp
  | step hr he ih =>
    rename_i p' u c' v w
    rw [List.chain'_append]
    refine ⟨ih, by simp, ?_⟩
    intro x hx y hy
    rw [reachP_getLast hr] at hx
    cases hx
    simp at hy
    cases hy
    exact ⟨w, he⟩

theorem reachP_nonneg {g : Graph} (hnn : NonnegWeights g) {s : Node} {p : List Node}
    {n : Node} {c : ℚ} (h : ReachP g s p n c) : 0 ≤ c := by
  induction h with
  | refl => exact le_refl 0
  | step hr he ih => exact add_nonneg ih (edgeIn_nonneg hnn he)

/-- Crossing lemma: a path from a node of V to a node outside V decomposes at
the first node outside V, giving an edge from V out of V whose endpoint cost
bounds the total path cost from below (weights being nonnegative). -/
theorem reachP_cross {g : Graph} (hnn : NonnegWeights g) {s : Node} {V : List Node}
    {p : List Node} {n : Node} {c : ℚ} (h : ReachP g s p n c) (hn : n ∉ V) (hsv : s ∈ V) :
    ∃ x y w cx px, x ∈ V ∧ y ∉ V ∧ EdgeIn g x y w ∧ ReachP g s px x cx ∧ cx + w ≤ c := by
  induction h with
  | refl => exact absurd hsv hn
  | step hr he ih =>
    rename_i p' u c' v w
    by_cases hu : u ∈ V
    · exact ⟨u, v, w, c', p', hu, hn, he, hr, le_refl _⟩
    · rcases ih hu with ⟨x, y, w', cx, px, hx, hy, he', hr', hle⟩
      exact ⟨x, y, w', cx, px, hx, hy, he', hr',
        le_trans hle (le_add_of_nonneg_right (edgeIn_nonneg hnn he))⟩

theorem lexLt_true_iff (a b : ℚ × Node) :
    lexLt a b = true ↔ (a.1 < b.1 ∨ (a.1 = b.1 ∧ a.2 < b.2)) := by
  simp [lexLt]

theorem lexLt_false_le {a b : ℚ × Node} (h : lexLt a b = false) : b.1 ≤ a.1 := by
  have h2 : ¬ (a.1 < b.1 ∨ (a.1 = b.1 ∧ a.2 < b.2)) := by
    rw [← lexLt_true_iff]
    simp [h]
  push_neg at h2
  exact h2.1

theorem popMin_eq_none {α : Type} (ltb : α → α → Bool) (l : List α) :
    popMin ltb l = none ↔ l = [] := by
  cases l with
  | nil => simp [popMin]
  | cons x xs =>
    simp only [popMin]
    constructor
    · intro h
      rcases hx : popMin ltb xs with _ | m
      · rw [hx] at h
        simp at h
      · rw [hx] at h
        rcases m with ⟨m, rest⟩
        by_cases hlt : ltb m x <;> simp [hlt] at h
    · intro h
      cases h

theorem popMin_perm {α : Type} (ltb : α → α → Bool) :
    ∀ (l : List α) (m : α) (rest : List α),
      popMin ltb l = some (m, rest) → l.Perm (m :: rest) := by
  intro l
  induction l with
  | nil => intro m rest h; simp [popMin] at h
  | cons x xs ih =>
    intro m rest h
    rw [popMin] at h
    rcases hx : popMin ltb xs with _ | ⟨m', rest'⟩
    · rw [hx] at h
      dsimp only at h
      rw [popMin_eq_none] at hx
      subst hx
      cases h
      exact List.Perm.refl _
    · rw [hx] at h
      dsimp only at h
      have hperm := ih m' rest' hx
      by_cases hlt : ltb m' x
      · rw [if_pos hlt] at h
        cases h
        exact List.Perm.trans (hperm.cons x) (List.Perm.swap _ _ _)
      · rw [if_neg hlt] at h
        cases h
        exact List.Perm.refl _

theorem popMin_mem {α : Type} {ltb : α → α → Bool} {l : List α} {m : α} {rest : List α}
    (h : popMin ltb l = some (m, rest)) : m ∈ l :=
  (popMin_perm ltb l m rest h).symm.subset (List.mem_cons_self m rest)

theorem popMin_min_fst :
    ∀ (l : List (ℚ × Node)) (d : ℚ) (u : Node) (rest : List (ℚ × Node)),
      popMin lexLt l = some ((d, u), rest) → ∀ e ∈ l, d ≤ e.1 := by
  intro l
  induction l with
  | nil => intro d u rest h; simp [popMin] at h
  | cons x xs ih =>
    intro d u rest h e he
    rw [popMin] at h
    rcases hx : popMin lexLt xs with _ | ⟨⟨d', u'⟩, rest'⟩
    · rw [hx] at h
      dsimp only at h
      rw [popMin_eq_none] at hx
      subst hx
      cases h
      simp at he
      subst he
      exact le_refl _
    · rw [hx] at h
      dsimp only at h
      have hmin := ih d' u' rest' hx
      by_cases hlt : lexLt (d', u') x
      · rw [if_pos hlt] at h
        cases h
        rcases List.mem_cons.mp he with rfl | hxs
        · rcases (lexLt_true_iff _ _).mp hlt with hl | ⟨hl, _⟩
          · exact le_of_lt hl
          · exact le_of_eq hl
        · exact hmin e hxs
      · rw [if_neg hlt] at h
        cases h
        rcases List.mem_cons.mp he with rfl | hxs
        · exact le_refl _
        · exact le_trans (lexLt_false_le (Bool.of_not_eq_true hlt)) (hmin e hxs)

/-- Key lemma of Dijkstra: when the loop pops an unvisited node u at priority
d, then d is exactly the recorded distance of u, and d is a lower bound on the
cost of every path from start to u. -/
theorem pop_optimal {g : Graph} {start : Node} {st : DState}
    (hnn : NonnegWeights g) (hG : GInv g start st.visited st)
    {d : ℚ} {u : Node} {rest : List (ℚ × Node)}
    (hpop : popMin lexLt st.queue = some ((d, u), rest)) (hu : u ∉ st.visited) :
    st.dist u = some ((d : ℚ) : WithTop ℚ) ∧ ∀ p c, ReachP g start p u c → d ≤ c := by
  have hmem : (d, u) ∈ st.queue := popMin_mem hpop
  rcases hG.qub _ hmem with ⟨du, hdu, hdule⟩
  rcases WithTop.le_coe_iff.mp hdule with ⟨q, hq, hqd⟩
  rw [hq] at hdu
  have hqmem := hG.qcover u hu q hdu
  have hdq : d ≤ q := popMin_min_fst _ _ _ _ hpop _ hqmem
  have hqeq : d = q := le_antisymm hdq hqd
  subst hqeq
  refine ⟨hdu, ?_⟩
  intro p c hp
  by_cases hsv : start ∈ st.visited
  · rcases reachP_cross hnn hp hu hsv with ⟨x, y, w, cx, px, hx, hy, he, hr, hle⟩
    rcases hG.vopt x hx with ⟨qx, hqx, _, hxopt⟩
    have hqxcx : qx ≤ cx := hxopt px cx hr
    rcases hG.fr x hx y w he with hyv | hbound
    · exact absurd hyv hy
    · rcases hbound qx hqx with ⟨dv, hdv, hdvle⟩
      rcases WithTop.le_coe_iff.mp hdvle with ⟨qy, hqy, hqyle⟩
      rw [hqy] at hdv
      have hymem := hG.qcover y hy qy hdv
      have hdqy : d ≤ qy := popMin_min_fst _ _ _ _ hpop _ hymem
      have hww : 0 ≤ w := edgeIn_nonneg hnn he
      calc d ≤ qy := hdqy
        _ ≤ qx + w := hqyle
        _ ≤ cx + w := by linarith
        _ ≤ c := hle
  · have hsmem := hG.qcover start hsv 0 hG.pstart
    have hd0 : d ≤ 0 := popMin_min_fst _ _ _ _ hpop _ hsmem
    exact le_trans hd0 (reachP_nonneg hnn hp)

/-- One successful relaxation step preserves the loop invariant. -/
theorem update_pres {g : Graph} {start : Node} (hnn : NonnegWeights g)
    {u nb : Node} {d w : ℚ} {st : DState} {W : List Node} {dnb : WithTop ℚ}
    (hG : GInv g start W st) (hu : u ∈ st.visited)
    (hdu : st.dist u = some ((d : ℚ) : WithTop ℚ))
    (hdnn : 0 ≤ d) (hw : 0 ≤ w)
    (henb : EdgeIn g u nb w)
    (hpu : ∃ p, ReachP g start p u d)
    (hnbv : nb ∉ st.visited)
    (hdnb : st.dist nb = some dnb)
    (hlt : ((d + w : ℚ) : WithTop ℚ) < dnb) :
    GInv g start W
      { st with
        dist := fun n => if n = nb then some ((d + w : ℚ) : WithTop ℚ) else st.dist n
        prev := fun n => if n = nb then some (some u) else st.prev n
        queue := st.queue ++ [((d + w : ℚ), nb)] } := by
  have hune : u ≠ nb := fun h => hnbv (h ▸ hu)
  have hndnn : (0 : ℚ) ≤ d + w := add_nonneg hdnn hw
  have hnbs : nb ≠ start := by
    intro hh
    subst hh
    rw [hG.pstart] at hdnb
    cases hdnb
    rw [WithTop.coe_lt_coe] at hlt
    linarith
  refine ⟨?_, ?_, ?_, ?_, ?_, ?_, ?_, ?_, ?_⟩
  · exact fun n hn => hG.wsub n hn
  · dsimp only
    rw [if_neg (fun h => hnbs h.symm)]
    exact hG.pstart
  · intro e he
    rcases List.mem_append.mp he with h1 | h1
    · exact hG.qnn e h1
    · rcases List.mem_singleton.mp h1 with rfl
      exact hndnn
  · intro e he
    dsimp only
    rcases List.mem_append.mp he with h1 | h1
    · rcases hG.qub e h1 with ⟨dn, hdn, hle⟩
      by_cases h2 : e.2 = nb
      · rw [h2] at hdn
        rw [hdnb] at hdn
        cases hdn
        rw [if_pos h2]
        exact ⟨_, rfl, le_trans (le_of_lt hlt) hle⟩
      · rw [if_neg h2]
        exact ⟨dn, hdn, hle⟩
    · rcases List.mem_singleton.mp h1 with rfl
      rw [if_pos rfl]
      exact ⟨_, rfl, le_refl _⟩
  · intro e he
    rcases List.mem_append.mp he with h1 | h1
    · exact hG.qpath e h1
    · rcases List.mem_singleton.mp h1 with rfl
      rcases hpu with ⟨p, hp⟩
      exact ⟨p ++ [nb], hp.step henb⟩
  · intro n hn q hq
    dsimp only at hq
    by_cases h2 : n = nb
    · rw [if_pos h2] at hq
      injection hq with hq
      rw [WithTop.coe_inj] at hq
      rw [← hq, h2]
      exact List.mem_append_right _ (List.mem_singleton.mpr rfl)
    · rw [if_neg h2] at hq
      exact List.mem_append_left _ (hG.qcover n hn q hq)
  · intro n hn
    have h2 : n ≠ nb := fun h => hnbv (h ▸ hn)
    rcases hG.vopt n hn with ⟨q, hq, hpath, hopt⟩
    refine ⟨q, ?_, hpath, hopt⟩
    dsimp only
    rw [if_neg h2]
    exact hq
  · intro x hx v w' he'
    have hxv := hG.wsub x hx
    have hxnb : x ≠ nb := fun h => hnbv (h ▸ hxv)
    rcases hG.fr x hx v w' he' with h1 | h2
    · exact Or.inl h1
    · right
      intro qx hqx
      dsimp only at hqx
      rw [if_neg hxnb] at hqx
      rcases h2 qx hqx with ⟨dv, hdv, hble⟩
      by_cases hv : v = nb
      · rw [hv] at hdv
        rw [hdnb] at hdv
        cases hdv
        refine ⟨((d + w : ℚ) : WithTop ℚ), ?_, ?_⟩
        · dsimp only
          rw [if_pos hv]
        · exact le_trans (le_of_lt hlt) hble
      · refine ⟨dv, ?_, hble⟩
        dsimp only
        rw [if_neg hv]
        exact hdv
  · intro n m hpm
    dsimp only at hpm
    by_cases h2 : n = nb
    · subst h2
      rw [if_pos rfl] at hpm
      injection hpm with hpm
      injection hpm with hpm
      subst hpm
      refine ⟨hu, d + w, d, w, ?_, ?_, henb, rfl⟩
      · dsimp only
        rw [if_pos rfl]
      · dsimp only
        rw [if_neg hune]
        exact hdu
    · rw [if_neg h2] at hpm
      rcases hG.pv n m hpm with ⟨hmv, qn, qm, w', hdn, hdm, he', heq⟩
      have hmnb : m ≠ nb := fun h => hnbv (h ▸ hmv)
      refine ⟨hmv, qn, qm, w', ?_, ?_, he', heq⟩
      · dsimp only
        rw [if_neg h2]
        exact hdn
      · dsimp only
        rw [if_neg hmnb]
        exact hdm

/-- The relaxation loop preserves the invariant, freezes visited distances,
never decreases no distance below its previous value minus improvements, and
leaves every processed edge target visited or bounded by d plus the weight. -/
theorem relaxAll_pres {g : Graph} {start : Node} (hnn : NonnegWeights g)
    {u : Node} {d : ℚ} (hdnn : 0 ≤ d) (hpu : ∃ p, ReachP g start p u d) :
    ∀ (es : List (Node × ℚ)), (∀ e ∈ es, EdgeIn g u e.1 e.2) →
    ∀ (st st' : DState) (W : List Node),
      GInv g start W st → u ∈ st.visited →
      st.dist u = some ((d : ℚ) : WithTop ℚ) →
      relaxAll d u es st = .ok st' →
      GInv g start W st' ∧ st'.visited = st.visited ∧
      (∀ x ∈ st.visited, st'.dist x = st.dist x) ∧
      (∀ e ∈ es, e.1 ∈ st'.visited ∨
        ∃ dv, st'.dist e.1 = some dv ∧ dv ≤ ((d + e.2 : ℚ) : WithTop ℚ)) ∧
      (∀ n dv, st.dist n = some dv → ∃ dv', st'.dist n = some dv' ∧ dv' ≤ dv) := by
  intro es
  induction es with
  | nil =>
    intro hes st st' W hG hu hdu hrun
    rw [relaxAll] at hrun
    cases hrun
    exact ⟨hG, rfl, fun x _ => rfl, by simp, fun n dv h => ⟨dv, h, le_refl _⟩⟩
  | cons e es ih =>
    rcases e with ⟨nb, w⟩
    intro hes st st' W hG hu hdu hrun
    have henb : EdgeIn g u nb w := hes (nb, w) (List.mem_cons_self _ _)
    have hw : 0 ≤ w := edgeIn_nonneg hnn henb
    have hestail : ∀ e ∈ es, EdgeIn g u e.1 e.2 := fun e he => hes e (List.mem_cons_of_mem _ he)
    rw [relaxAll] at hrun
    by_cases hnbv : nb ∈ st.visited
    · rw [if_pos hnbv] at hrun
      rcases ih hestail st st' W hG hu hdu hrun with ⟨hG', hveq, hfrz, hcond, hmono⟩
      refine ⟨hG', hveq, hfrz, ?_, hmono⟩
      intro e he
      rcases List.mem_cons.mp he with rfl | hin
      · left
        rw [hveq]
        exact hnbv
      · exact hcond e hin
    · rw [if_neg hnbv] at hrun
      rcases hdnb : st.dist nb with _ | dnb
      · rw [hdnb] at hrun
        simp at hrun
      · rw [hdnb] at hrun
        dsimp only at hrun
        have hune : u ≠ nb := fun h => hnbv (h ▸ hu)
        by_cases hlt : ((d + w : ℚ) : WithTop ℚ) < dnb
        · rw [if_pos hlt] at hrun
          have hG2 := update_pres hnn hG hu hdu hdnn hw henb hpu hnbv hdnb hlt
          rcases ih hestail _ st' W hG2 hu (by
              dsimp only
              rw [if_neg hune]
              exact hdu) hrun with ⟨hG', hveq, hfrz, hcond, hmono⟩
          have hd2 : ∀ x ∈ st.visited,
              (fun n => if n = nb then some ((d + w : ℚ) : WithTop ℚ) else st.dist n) x
                = st.dist x := by
            intro x hx
            have hxne : x ≠ nb := fun h => hnbv (h ▸ hx)
            dsimp only
            rw [if_neg hxne]
          refine ⟨hG', hveq, ?_, ?_, ?_⟩
          · intro x hx
            rw [hfrz x hx]
            exact hd2 x hx
          · intro e he
            rcases List.mem_cons.mp he with rfl | hin
            · right
              rcases hmono nb ((d + w : ℚ) : WithTop ℚ) (by
                  dsimp only
                  rw [if_pos rfl]) with ⟨dv', hdv', hle'⟩
              exact ⟨dv', hdv', hle'⟩
            · exact hcond e hin
          · intro n dv hdv
            by_cases h2 : n = nb
            · subst h2
              rw [hdnb] at hdv
              cases hdv
              rcases hmono n ((d + w : ℚ) : WithTop ℚ) (by
                  dsimp only
                  rw [if_pos rfl]) with ⟨dv', hdv', hle'⟩
              exact ⟨dv', hdv', le_trans hle' (le_of_lt hlt)⟩
            · rcases hmono n dv (by
                  dsimp only
                  rw [if_neg h2]
                  exact hdv) with ⟨dv', hdv', hle'⟩
              exact ⟨dv', hdv', hle'⟩
        · rw [if_neg hlt] at hrun
          rcases ih hestail st st' W hG hu hdu hrun with ⟨hG', hveq, hfrz, hcond, hmono⟩
          refine ⟨hG', hveq, hfrz, ?_, hmono⟩
          intro e he
          rcases List.mem_cons.mp he with rfl | hin
          · right
            rcases hmono nb dnb hdnb with ⟨dv', hdv', hle'⟩
            exact ⟨dv', hdv', le_trans hle' (le_of_not_lt hlt)⟩
          · exact hcond e hin

/-- The initial Dijkstra state satisfies the loop invariant with an empty
relaxed set. -/
theorem init_inv (g : Graph) (start : Node) :
    GInv g start [] (initState g start) := by
  refine ⟨?_, ?_, ?_, ?_, ?_, ?_, ?_, ?_, ?_⟩
  · intro n hn
    simp at hn
  · dsimp only [initState]
    rw [if_pos rfl]
    rfl
  · intro e he
    simp only [initState, List.mem_singleton] at he
    subst he
    exact le_refl 0
  · intro e he
    simp only [initState, List.mem_singleton] at he
    subst he
    dsimp only [initState]
    rw [if_pos rfl]
    exact ⟨_, rfl, le_refl _⟩
  · intro e he
    simp only [initState, List.mem_singleton] at he
    subst he
    exact ⟨[start], ReachP.refl⟩
  · intro n _ q hq
    dsimp only [initState] at hq ⊢
    by_cases h2 : n = start
    · rw [if_pos h2] at hq
      injection hq with hq
      have hq0 : ((q : ℚ) : WithTop ℚ) = ((0 : ℚ) : WithTop ℚ) := by
        rw [← hq]
        rfl
      rw [WithTop.coe_inj] at hq0
      rw [hq0, h2]
      exact List.mem_singleton.mpr rfl
    · rw [if_neg h2] at hq
      by_cases h3 : n ∈ keysOf g
      · rw [if_pos h3] at hq
        injection hq with hq
        exact absurd hq.symm (WithTop.coe_ne_top)
      · rw [if_neg h3] at hq
        cases hq
  · intro n hn
    simp [initState] at hn
  · intro x hx _ _ _
    simp at hx
  · intro n m hpm
    dsimp only [initState] at hpm
    by_cases h2 : n ∈ keysOf g
    · rw [if_pos h2] at hpm
      injection hpm with hpm
      cases hpm
    · rw [if_neg h2] at hpm
      cases hpm

/-- Every successful run of the Dijkstra main loop, started in an invariant
state, ends in a state satisfying the postcondition. -/
theorem loop_post {g : Graph} {start goal : Node} (hnn : NonnegWeights g) :
    ∀ (fuel : Nat) (st st' : DState),
      GInv g start st.visited st →
      dijkstraLoop g goal fuel st = .ok st' →
      PostInv g start goal st' := by
  intro fuel
  induction fuel with
  | zero =>
    intro st st' _ h
    simp [dijkstraLoop] at h
  | succ f ih =>
    intro st st' hG hrun
    rw [dijkstraLoop] at hrun
    rcases hpop : popMin lexLt st.queue with _ | ⟨⟨d, u⟩, rest⟩
    · rw [hpop] at hrun
      dsimp only at hrun
      cases hrun
      exact ⟨hG.pstart, hG.vopt, hG.qcover, hG.pv, Or.inr ((popMin_eq_none _ _).mp hpop)⟩
    · rw [hpop] at hrun
      dsimp only at hrun
      have hperm := popMin_perm lexLt _ _ _ hpop
      by_cases hu : u ∈ st.visited
      · rw [if_pos hu] at hrun
        refine ih _ st' ?_ hrun
        refine ⟨hG.wsub, hG.pstart, ?_, ?_, ?_, ?_, hG.vopt, hG.fr, hG.pv⟩
        · exact fun e he => hG.qnn e (hperm.symm.subset (List.mem_cons_of_mem _ he))
        · exact fun e he => hG.qub e (hperm.symm.subset (List.mem_cons_of_mem _ he))
        · exact fun e he => hG.qpath e (hperm.symm.subset (List.mem_cons_of_mem _ he))
        · intro n hn q hq
          have hmem := hG.qcover n hn q hq
          rcases List.mem_cons.mp (hperm.subset hmem) with heq | h1
          · simp only [Prod.mk.injEq] at heq
            exact absurd (heq.2 ▸ hu) hn
          · exact h1
      · rw [if_neg hu] at hrun
        have hkey := pop_optimal hnn hG hpop hu
        have hdnn : (0 : ℚ) ≤ d := hG.qnn (d, u) (popMin_mem hpop)
        have hpu : ∃ p, ReachP g start p u d := hG.qpath (d, u) (popMin_mem hpop)
        have hG1 : GInv g start st.visited
            { st with queue := rest, visited := u :: st.visited } := by
          refine ⟨?_, hG.pstart, ?_, ?_, ?_, ?_, ?_, ?_, ?_⟩
          · exact fun n hn => List.mem_cons_of_mem _ hn
          · exact fun e he => hG.qnn e (hperm.symm.subset (List.mem_cons_of_mem _ he))
          · exact fun e he => hG.qub e (hperm.symm.subset (List.mem_cons_of_mem _ he))
          · exact fun e he => hG.qpath e (hperm.symm.subset (List.mem_cons_of_mem _ he))
          · intro n hn q hq
            have hn1 : n ∉ st.visited := fun h => hn (List.mem_cons_of_mem _ h)
            have hnu : n ≠ u := fun h => hn (h ▸ List.mem_cons_self u st.visited)
            have hmem := hG.qcover n hn1 q hq
            rcases List.mem_cons.mp (hperm.subset hmem) with heq | h1
            · simp only [Prod.mk.injEq] at heq
              exact absurd heq.2 hnu
            · exact h1
          · intro n hn
            rcases List.mem_cons.mp hn with rfl | h1
            · exact ⟨d, hkey.1, hpu, hkey.2⟩
            · exact hG.vopt n h1
          · intro x hx v w he
            rcases hG.fr x hx v w he with h1 | h2
            · exact Or.inl (List.mem_cons_of_mem _ h1)
            · exact Or.inr h2
          · intro n m hpm
            rcases hG.pv n m hpm with ⟨hmv, h2⟩
            exact ⟨List.mem_cons_of_mem _ hmv, h2⟩
        by_cases hgoal : u = goal
        · rw [if_pos hgoal] at hrun
          cases hrun
          refine ⟨hG1.pstart, hG1.vopt, hG1.qcover, hG1.pv, Or.inl ?_⟩
          rw [← hgoal]
          exact List.mem_cons_self _ _
        · rw [if_neg hgoal] at hrun
          rcases hlook : lookupG g u with _ | es
          · rw [hlook] at hrun
            simp at hrun
          · rw [hlook] at hrun
            dsimp only at hrun
            rcases hrelax : relaxAll d u es { st with queue := rest, visited := u :: st.visited }
              with e2 | st2
            · rw [hrelax] at hrun
              simp at hrun
            · rw [hrelax] at hrun
              dsimp only at hrun
              have hes : ∀ e ∈ es, EdgeIn g u e.1 e.2 := fun e he => ⟨es, hlook, he⟩
              rcases relaxAll_pres hnn hdnn hpu es hes _ st2 st.visited hG1
                (List.mem_cons_self _ _) hkey.1 hrelax with ⟨hG', hveq, hfrz, hcond, hmono⟩
              refine ih st2 st' ?_ hrun
              refine ⟨fun n hn => hn, hG'.pstart, hG'.qnn, hG'.qub, hG'.qpath,
                hG'.qcover, hG'.vopt, ?_, hG'.pv⟩
              intro x hx v w he
              rw [hveq] at hx
              rcases List.mem_cons.mp hx with rfl | h1
              · have hmemes : (v, w) ∈ es := by
                  rcases he with ⟨es2, hlook2, hm⟩
                  rw [hlook] at hlook2
                  injection hlook2 with hlook2
                  rw [hlook2]
                  exact hm
                rcases hcond (v, w) hmemes with h2 | ⟨dv, hdv, hble⟩
                · exact Or.inl h2
                · right
                  intro qx hqx
                  have hdu2 : st2.dist x = some ((d : ℚ) : WithTop ℚ) := by
                    rw [hfrz x (List.mem_cons_self _ _)]
                    exact hkey.1
                  rw [hdu2] at hqx
                  injection hqx with hqx
                  rw [WithTop.coe_inj] at hqx
                  rw [← hqx]
                  exact ⟨dv, hdv, hble⟩
              · rcases hG'.fr x h1 v w he with h2 | h2
                · exact Or.inl h2
                · exact Or.inr h2

/-- Reconstruction walks the previous dict backwards; its result decomposes
into a real path of the graph whose cost telescopes the recorded distances. -/
theorem recon_spec {g : Graph} {st : DState}
    (hpv : ∀ n m, st.prev n = some (some m) → m ∈ st.visited ∧
      ∃ qn qm w : ℚ, st.dist n = some ((qn : ℚ) : WithTop ℚ) ∧
        st.dist m = some ((qm : ℚ) : WithTop ℚ) ∧ EdgeIn g m n w ∧ qn = qm + w) :
    ∀ (f : Nat) (cur : Node) (acc res : List Node),
      reconstruct st.prev f cur acc = .ok res →
      ∀ qc : ℚ, st.dist cur = some ((qc : ℚ) : WithTop ℚ) →
      ∃ pre h qh cp, res = pre ++ acc ∧ pre.head? = some h ∧
        st.dist h = some ((qh : ℚ) : WithTop ℚ) ∧
        ReachP g h pre cur cp ∧ qc = qh + cp := by
  intro f
  induction f with
  | zero =>
    intro cur acc res h
    simp [reconstruct] at h
  | succ f ih =>
    intro cur acc res hrun qc hqc
    rw [reconstruct] at hrun
    rcases hp : st.prev cur with _ | m2
    · rw [hp] at hrun
      simp at hrun
    · rcases m2 with _ | m
      · rw [hp] at hrun
        dsimp only at hrun
        cases hrun
        exact ⟨[cur], cur, qc, 0, rfl, rfl, hqc, ReachP.refl, (add_zero qc).symm⟩
      · rw [hp] at hrun
        dsimp only at hrun
        rcases hpv cur m hp with ⟨hmv, qn, qm, w, hdn, hdm, he, heq⟩
        rw [hqc] at hdn
        injection hdn with hdn
        rw [WithTop.coe_inj] at hdn
        rcases ih m (cur :: acc) res hrun qm hdm with
          ⟨pre, h, qh, cp, hres, hhead, hdh, hreach, hsum⟩
        refine ⟨pre ++ [cur], h, qh, cp + w, ?_, ?_, hdh, hreach.step he, ?_⟩
        · rw [hres, List.append_assoc]
          rfl
        · rw [List.head?_append, hhead]
          rfl
        · rw [hdn, heq, hsum]
          ring

/-- Full specification of a successful Dijkstra run that returns a path: the
cost is finite, the path is a real path of the graph from start to goal with
exactly that cost, and no path from start to goal costs less. -/
theorem dijkstra_ok_spec {g : Graph} {start goal : Node} (hnn : NonnegWeights g)
    {P : List Node} {c : WithTop ℚ}
    (hrun : dijkstra_pathfinding g start goal = .ok (some P, c)) :
    ∃ q : ℚ, c = ((q : ℚ) : WithTop ℚ) ∧ ReachP g start P goal q ∧
      ∀ p' c', ReachP g start p' goal c' → q ≤ c' := by
  rw [dijkstra_pathfinding] at hrun
  rcases hloop : dijkstraLoop g goal (loopFuel g) (initState g start) with e | st
  · rw [hloop, ex_bind_err] at hrun
    cases hrun
  · rw [hloop, ex_bind_ok] at hrun
    have hpost := loop_post hnn (loopFuel g) (initState g start) st (init_inv g start) hloop
    rcases hrec : reconstruct st.prev ((keysOf g).length + 2) goal [] with e | path
    · rw [hrec, ex_bind_err] at hrun
      cases hrun
    · rw [hrec, ex_bind_ok] at hrun
      by_cases hhead : path.head? = some start
      · rw [if_pos hhead] at hrun
        rcases hdg : st.dist goal with _ | cg
        · rw [hdg] at hrun
          cases hrun
        · rw [hdg] at hrun
          dsimp only at hrun
          injection hrun with hrun
          simp only [Prod.mk.injEq] at hrun
          rcases hrun with ⟨hP, hc⟩
          injection hP with hP
          subst hP
          subst hc
          by_cases hgv : goal ∈ st.visited
          · rcases hpost.vopt goal hgv with ⟨q, hq, _, hopt⟩
            rw [hdg] at hq
            injection hq with hq
            subst hq
            rcases recon_spec hpost.pv ((keysOf g).length + 2) goal [] path hrec q hdg with
              ⟨pre, h, qh, cp, hres, hhead2, hdh, hreach, hsum⟩
            rw [List.append_nil] at hres
            subst hres
            rw [hhead2] at hhead
            injection hhead with hh
            subst hh
            rw [hpost.pstart] at hdh
            injection hdh with hdh
            rw [WithTop.coe_inj] at hdh
            refine ⟨q, rfl, ?_, hopt⟩
            have hcpq : cp = q := by linarith
            rw [← hcpq]
            exact hreach
          · exfalso
            have hqempty : st.queue = [] := hpost.final.resolve_left hgv
            rcases hpg : st.prev goal with _ | m2
            · rw [reconFuel_succ, reconstruct, hpg] at hrec
              cases hrec
            · rcases m2 with _ | m
              · rw [reconFuel_succ, reconstruct, hpg] at hrec
                dsimp only at hrec
                injection hrec with hrec
                rw [← hrec] at hhead
                injection hhead with hhead
                rw [hhead] at hgv
                have hmem := hpost.qcover start hgv 0 hpost.pstart
                rw [hqempty] at hmem
                simp at hmem
              · rcases hpost.pv goal m hpg with ⟨_, qn, qm, w, hdn, _, _, _⟩
                have hmem := hpost.qcover goal hgv qn hdn
                rw [hqempty] at hmem
                simp at hmem
      · rw [if_neg hhead] at hrun
        injection hrun with hrun
        simp only [Prod.mk.injEq] at hrun
        cases hrun.1

/-- C1: on a graph with nonnegative edge weights and start and goal keys of
the graph, whenever dijkstra_pathfinding returns a path P with finite cost q,
P starts at the start node and ends at the goal, consecutive nodes of P are
joined by edges of the graph whose chosen weights sum to q (the ReachP
witness), and no path from start to goal has cost strictly below q. -/
theorem C1_dijkstra_correct (g : Graph) (start goal : Node)
    (hnn : NonnegWeights g) (hstart : start ∈ keysOf g) (hgoal : goal ∈ keysOf g)
    (P : List Node) (q : ℚ)
    (hrun : dijkstra_pathfinding g start goal = .ok (some P, ((q : ℚ) : WithTop ℚ))) :
    P.head? = some start ∧ P.getLast? = some goal ∧
    List.Chain' (fun a b => ∃ w, EdgeIn g a b w) P ∧
    ReachP g start P goal q ∧
    ∀ p' c', ReachP g start p' goal c' → q ≤ c' := by
  rcases dijkstra_ok_spec hnn hrun with ⟨q', hq', hreach, hopt⟩
  rw [WithTop.coe_inj] at hq'
  subst hq'
  exact ⟨reachP_head hreach, reachP_getLast hreach, reachP_chain hreach, hreach, hopt⟩

/-- C1 witness: the two-node graph with a single unit edge from A to B. -/
theorem C1_witness :
    (["A", "B"] : List Node).head? = some "A" ∧
    (["A", "B"] : List Node).getLast? = some "B" ∧
    List.Chain' (fun a b => ∃ w, EdgeIn [("A", [("B", (1 : ℚ))]), ("B", [])] a b w) ["A", "B"] ∧
    ReachP [("A", [("B", (1 : ℚ))]), ("B", [])] "A" ["A", "B"] "B" 1 ∧
    ∀ p' c', ReachP [("A", [("B", (1 : ℚ))]), ("B", [])] "A" p' "B" c' → 1 ≤ c' :=
  C1_dijkstra_correct [("A", [("B", 1)]), ("B", [])] "A" "B"
    (by with_unfolding_all decide) (by with_unfolding_all decide) (by with_unfolding_all decide)
    ["A", "B"] 1 (by with_unfolding_all decide)

/-! Lemmas about the alternative-path machinery, leading to the properties of
find_all_paths. -/

theorem head_append_ne_nil {α : Type} {l : List α} (h : l ≠ []) (l2 : List α) :
    (l ++ l2).head? = l.head? := by
  cases l with
  | nil => exact absurd rfl h
  | cons x xs => rfl

theorem lookupG_removeEdge (g : Graph) (u v n : Node) :
    lookupG (removeEdge g u v) n =
      (lookupG g n).map (fun es => if n = u then es.filter (fun e => !(e.1 == v)) else es) := by
  induction g with
  | nil => rfl
  | cons kv rest ih =>
    rcases kv with ⟨k, es⟩
    simp only [removeEdge, List.map_cons, lookupG]
    by_cases hk : k = n
    · subst hk
      rw [if_pos rfl, if_pos rfl]
      rfl
    · rw [if_neg hk, if_neg hk]
      exact ih

theorem lookupG_removeNode (g : Graph) (x n : Node) :
    lookupG (removeNode g x) n =
      (lookupG g n).map (fun es => if n = x then [] else es.filter (fun e => !(e.1 == x))) := by
  induction g with
  | nil => rfl
  | cons kv rest ih =>
    rcases kv with ⟨k, es⟩
    simp only [removeNode, List.map_cons, lookupG]
    by_cases hk : k = n
    · subst hk
      rw [if_pos rfl, if_pos rfl]
      rfl
    · rw [if_neg hk, if_neg hk]
      exact ih

theorem removeEdge_edgeIn {g : Graph} {u v a b : Node} {w : ℚ}
    (h : EdgeIn (removeEdge g u v) a b w) : EdgeIn g a b w := by
  rcases h with ⟨es2, hlook, hmem⟩
  rw [lookupG_removeEdge] at hlook
  rcases hg : lookupG g a with _ | es
  · rw [hg] at hlook
    cases hlook
  · rw [hg] at hlook
    injection hlook with hlook
    refine ⟨es, hg, ?_⟩
    rw [← hlook] at hmem
    dsimp only at hmem
    by_cases ha : a = u
    · rw [if_pos ha] at hmem
      exact List.mem_of_mem_filter hmem
    · rw [if_neg ha] at hmem
      exact hmem

theorem removeNode_edgeIn {g : Graph} {x a b : Node} {w : ℚ}
    (h : EdgeIn (removeNode g x) a b w) : EdgeIn g a b w := by
  rcases h with ⟨es2, hlook, hmem⟩
  rw [lookupG_removeNode] at hlook
  rcases hg : lookupG g a with _ | es
  · rw [hg] at hlook
    cases hlook
  · rw [hg] at hlook
    injection hlook with hlook
    refine ⟨es, hg, ?_⟩
    rw [← hlook] at hmem
    dsimp only at hmem
    by_cases ha : a = x
    · rw [if_pos ha] at hmem
      simp at hmem
    · rw [if_neg ha] at hmem
      exact List.mem_of_mem_filter hmem

theorem removeEdge_nonneg {g : Graph} (hnn : NonnegWeights g) (u v : Node) :
    NonnegWeights (removeEdge g u v) := by
  intro p hp e he
  rcases List.mem_map.mp hp with ⟨kv, hkv, heq⟩
  subst heq
  dsimp only at he
  by_cases hk : kv.1 = u
  · rw [if_pos hk] at he
    exact hnn kv hkv e (List.mem_of_mem_filter he)
  · rw [if_neg hk] at he
    exact hnn kv hkv e he

theorem removeNode_nonneg {g : Graph} (hnn : NonnegWeights g) (x : Node) :
    NonnegWeights (removeNode g x) := by
  intro p hp e he
  rcases List.mem_map.mp hp with ⟨kv, hkv, heq⟩
  subst heq
  dsimp only at he
  by_cases hk : kv.1 = x
  · rw [if_pos hk] at he
    simp at he
  · rw [if_neg hk] at he
    exact hnn kv hkv e (List.mem_of_mem_filter he)

theorem reachP_mono {g g2 : Graph} (hsub : ∀ a b w, EdgeIn g2 a b w → EdgeIn g a b w)
    {s : Node} {p : List Node} {n : Node} {c : ℚ}
    (h : ReachP g2 s p n c) : ReachP g s p n c := by
  induction h with
  | refl => exact ReachP.refl
  | step hr he ih => exact ih.step (hsub _ _ _ he)

theorem insertByCost_perm (x : List Node × WithTop ℚ) (l : List (List Node × WithTop ℚ)) :
    (insertByCost x l).Perm (x :: l) := by
  induction l with
  | nil => exact List.Perm.refl _
  | cons y ys ih =>
    rw [insertByCost]
    by_cases h : y.2 < x.2
    · rw [if_pos h]
      exact List.Perm.trans (ih.cons y) (List.Perm.swap x y ys)
    · rw [if_neg h]

theorem sortByCost_perm (l : List (List Node × WithTop ℚ)) : (sortByCost l).Perm l := by
  induction l with
  | nil => exact List.Perm.refl _
  | cons x xs ih =>
    exact List.Perm.trans (insertByCost_perm x (sortByCost xs)) (ih.cons x)

theorem insertByCost_pairwise {x : List Node × WithTop ℚ} {l : List (List Node × WithTop ℚ)}
    (hs : l.Pairwise (fun a b => a.2 ≤ b.2)) :
    (insertByCost x l).Pairwise (fun a b => a.2 ≤ b.2) := by
  induction l with
  | nil => simp [insertByCost]
  | cons y ys ih =>
    rw [insertByCost]
    rcases List.pairwise_cons.mp hs with ⟨hy, hys⟩
    by_cases h : y.2 < x.2
    · rw [if_pos h]
      refine List.pairwise_cons.mpr ⟨?_, ih hys⟩
      intro z hz
      rcases List.mem_cons.mp ((insertByCost_perm x ys).subset hz) with rfl | hzys
      · exact le_of_lt h
      · exact hy z hzys
    · rw [if_neg h]
      refine List.pairwise_cons.mpr ⟨?_, hs⟩
      intro z hz
      rcases List.mem_cons.mp hz with rfl | hzys
      · exact le_of_not_lt h
      · exact le_trans (le_of_not_lt h) (hy z hzys)

theorem sortByCost_pairwise (l : List (List Node × WithTop ℚ)) :
    (sortByCost l).Pairwise (fun a b => a.2 ≤ b.2) := by
  induction l with
  | nil => simp [sortByCost]
  | cons x xs ih => exact insertByCost_pairwise ih

theorem sortByCost_head {a : List Node × WithTop ℚ} {l : List (List Node × WithTop ℚ)}
    (hhead : l.head? = some a) (hmin : ∀ e ∈ l, a.2 ≤ e.2) :
    (sortByCost l).head? = some a := by
  cases l with
  | nil => cases hhead
  | cons b rest =>
    injection hhead with hb
    subst hb
    have hmin2 : ∀ e ∈ sortByCost rest, b.2 ≤ e.2 := fun e he =>
      hmin e (List.mem_cons_of_mem _ ((sortByCost_perm rest).subset he))
    show (insertByCost b (sortByCost rest)).head? = some b
    rcases hsr : sortByCost rest with _ | ⟨y, ys⟩
    · rfl
    · rw [insertByCost]
      have hy : ¬ y.2 < b.2 := not_lt.mpr (hmin2 y (by rw [hsr]; exact List.mem_cons_self y ys))
      rw [if_neg hy]
      rfl

theorem dedupByJoin_subset : ∀ (l : List (List Node × WithTop ℚ)) (seen : List String),
    ∀ e ∈ dedupByJoin l seen, e ∈ l := by
  intro l
  induction l with
  | nil => intro seen e he; simp [dedupByJoin] at he
  | cons x xs ih =>
    rcases x with ⟨p, c⟩
    intro seen e he
    rw [dedupByJoin] at he
    by_cases h : joinPath p ∈ seen
    · rw [if_pos h] at he
      exact List.mem_cons_of_mem _ (ih seen e he)
    · rw [if_neg h] at he
      rcases List.mem_cons.mp he with rfl | h2
      · exact List.mem_cons_self _ _
      · exact List.mem_cons_of_mem _ (ih _ e h2)

theorem dedupByJoin_notSeen : ∀ (l : List (List Node × WithTop ℚ)) (seen : List String),
    ∀ e ∈ dedupByJoin l seen, joinPath e.1 ∉ seen := by
  intro l
  induction l with
  | nil => intro seen e he; simp [dedupByJoin] at he
  | cons x xs ih =>
    rcases x with ⟨p, c⟩
    intro seen e he
    rw [dedupByJoin] at he
    by_cases h : joinPath p ∈ seen
    · rw [if_pos h] at he
      exact ih seen e he
    · rw [if_neg h] at he
      rcases List.mem_cons.mp he with rfl | h2
      · exact h
      · have := ih _ e h2
        intro hcon
        exact this (List.mem_cons_of_mem _ hcon)

theorem dedupByJoin_pairwise : ∀ (l : List (List Node × WithTop ℚ)) (seen : List String),
    (dedupByJoin l seen).Pairwise (fun a b => joinPath a.1 ≠ joinPath b.1) := by
  intro l
  induction l with
  | nil => intro seen; simp [dedupByJoin]
  | cons x xs ih =>
    rcases x with ⟨p, c⟩
    intro seen
    rw [dedupByJoin]
    by_cases h : joinPath p ∈ seen
    · rw [if_pos h]
      exact ih seen
    · rw [if_neg h]
      refine List.pairwise_cons.mpr ⟨?_, ih _⟩
      intro e he
      have := dedupByJoin_notSeen xs (joinPath p :: seen) e he
      intro hcon
      exact this (by rw [← hcon]; exact List.mem_cons_self _ _)

theorem dedupByJoin_head (x : List Node × WithTop ℚ) (rest : List (List Node × WithTop ℚ)) :
    (dedupByJoin (x :: rest) []).head? = some x := by
  rcases x with ⟨p, c⟩
  rw [dedupByJoin]
  rw [if_neg (List.not_mem_nil _)]
  rfl

theorem appendNew_spec : ∀ (l acc : List (List Node × WithTop ℚ)),
    (∀ e ∈ appendNew acc l, e ∈ acc ∨ e ∈ l) ∧
    (acc ≠ [] → (appendNew acc l).head? = acc.head?) := by
  intro l
  induction l with
  | nil =>
    intro acc
    rw [appendNew]
    exact ⟨fun e he => Or.inl he, fun _ => rfl⟩
  | cons x xs ih =>
    rcases x with ⟨p, c⟩
    intro acc
    rw [appendNew]
    by_cases h : p ∈ acc.map Prod.fst
    · rw [if_pos h]
      rcases ih acc with ⟨h1, h2⟩
      refine ⟨?_, h2⟩
      intro e he
      rcases h1 e he with h3 | h3
      · exact Or.inl h3
      · exact Or.inr (List.mem_cons_of_mem _ h3)
    · rw [if_neg h]
      rcases ih (acc ++ [(p, c)]) with ⟨h1, h2⟩
      constructor
      · intro e he
        rcases h1 e he with h3 | h3
        · rcases List.mem_append.mp h3 with h4 | h4
          · exact Or.inl h4
          · rcases List.mem_singleton.mp h4 with rfl
            exact Or.inr (List.mem_cons_self _ _)
        · exact Or.inr (List.mem_cons_of_mem _ h3)
      · intro hne
        rw [h2 (by simp), head_append_ne_nil hne]

/-- Every entry the edge-removal loop adds comes from a Dijkstra run on an
edge-removed copy and fits the cost ceiling. -/
theorem edgeCandidates_spec {g : Graph} {start goal : Node} {maxCost : WithTop ℚ}
    {sp : List Node} :
    ∀ (pairs : List (Node × Node)) (acc cands : List (List Node × WithTop ℚ)),
      edgeCandidates g start goal maxCost sp pairs acc = .ok cands →
      ∀ e ∈ cands, e ∈ acc ∨
        ∃ u v, dijkstra_pathfinding (removeEdge g u v) start goal = .ok (some e.1, e.2) ∧
          e.2 ≤ maxCost := by
  intro pairs
  induction pairs with
  | nil =>
    intro acc cands h e he
    rw [edgeCandidates] at h
    cases h
    exact Or.inl he
  | cons pr rest ih =>
    rcases pr with ⟨u, v⟩
    intro acc cands h e he
    rw [edgeCandidates] at h
    rcases hval : validate_graph (removeEdge g u v) start goal with e1 | u1
    · rw [hval, ex_bind_err] at h
      cases h
    · rw [hval, ex_bind_ok] at h
      rcases hdd : dijkstra_pathfinding (removeEdge g u v) start goal with e1 | pr2
      · rw [hdd, ex_bind_err] at h
        cases h
      · rcases pr2 with ⟨alt?, altc⟩
        rw [hdd, ex_bind_ok] at h
        dsimp only at h
        rcases alt? with _ | ap
        · exact ih _ _ h e he
        · dsimp only at h
          by_cases hemp : ap.isEmpty
          · rw [if_pos hemp] at h
            exact ih _ _ h e he
          · rw [if_neg hemp] at h
            by_cases hle : altc ≤ maxCost
            · rw [if_pos hle] at h
              by_cases hsp : ap = sp
              · rw [if_pos hsp] at h
                exact ih _ _ h e he
              · rw [if_neg hsp] at h
                rcases ih _ _ h e he with h1 | h1
                · rcases List.mem_append.mp h1 with h2 | h2
                  · exact Or.inl h2
                  · rcases List.mem_singleton.mp h2 with rfl
                    exact Or.inr ⟨u, v, hdd, hle⟩
                · exact Or.inr h1
            · rw [if_neg hle] at h
              exact ih _ _ h e he

/-- Every entry the node-removal loop adds comes from a Dijkstra run on a
node-removed copy and fits the cost ceiling; the loop only appends, so the
head of a nonempty accumulator is preserved. -/
theorem nodeAltLoop_spec {g : Graph} {start goal : Node} {maxCost : WithTop ℚ} :
    ∀ (xs : List Node) (acc allp : List (List Node × WithTop ℚ)),
      nodeAltLoop g start goal maxCost xs acc = .ok allp →
      (∀ e ∈ allp, e ∈ acc ∨
        ∃ x, dijkstra_pathfinding (removeNode g x) start goal = .ok (some e.1, e.2) ∧
          e.2 ≤ maxCost) ∧
      (acc ≠ [] → allp.head? = acc.head?) := by
  intro xs
  induction xs with
  | nil =>
    intro acc allp h
    rw [nodeAltLoop] at h
    cases h
    exact ⟨fun e he => Or.inl he, fun _ => rfl⟩
  | cons x rest ih =>
    intro acc allp h
    rw [nodeAltLoop] at h
    rcases hval : validate_graph (removeNode g x) start goal with e1 | u1
    · rw [hval, ex_bind_err] at h
      cases h
    · rw [hval, ex_bind_ok] at h
      rcases hdd : dijkstra_pathfinding (removeNode g x) start goal with e1 | pr2
      · rw [hdd, ex_bind_err] at h
        cases h
      · rcases pr2 with ⟨alt?, altc⟩
        rw [hdd, ex_bind_ok] at h
        dsimp only at h
        rcases alt? with _ | ap
        · exact ih _ _ h
        · dsimp only at h
          by_cases hemp : ap.isEmpty
          · rw [if_pos hemp] at h
            exact ih _ _ h
          · rw [if_neg hemp] at h
            by_cases hle : altc ≤ maxCost
            · rw [if_pos hle] at h
              by_cases hsp : ap ∈ acc.map Prod.fst
              · rw [if_pos hsp] at h
                exact ih _ _ h
              · rw [if_neg hsp] at h
                rcases ih _ _ h with ⟨h1, h2⟩
                constructor
                · intro e he
                  rcases h1 e he with h3 | h3
                  · rcases List.mem_append.mp h3 with h4 | h4
                    · exact Or.inl h4
                    · rcases List.mem_singleton.mp h4 with rfl
                      exact Or.inr ⟨x, hdd, hle⟩
                  · exact Or.inr h3
                · intro hne
                  rw [h2 (by simp), head_append_ne_nil hne]
            · rw [if_neg hle] at h
              exact ih _ _ h

/-- C6 (counterexample): on a graph with one negative edge weight, Dijkstra
returns the direct path S, G with cost 0 within the infinite cost ceiling,
but find_all_paths sorts the cheaper alternative first, so the Dijkstra path
is not the first entry of the returned list. -/
theorem C6_counterexample :
    dijkstra_pathfinding negG "S" "G" = .ok (some ["S", "G"], ((0 : ℚ) : WithTop ℚ)) ∧
    find_all_paths negG "S" "G" ⊤ =
      .ok [(["S", "A", "G"], ((-90 : ℚ) : WithTop ℚ)), (["S", "G"], ((0 : ℚ) : WithTop ℚ))] ∧
    [(["S", "A", "G"], ((-90 : ℚ) : WithTop ℚ)),
      (["S", "G"], ((0 : ℚ) : WithTop ℚ))].head? ≠
        some (["S", "G"], ((0 : ℚ) : WithTop ℚ)) := by
  refine ⟨?_, ?_, ?_⟩
  · with_unfolding_all decide
  · with_unfolding_all decide
  · with_unfolding_all decide

/-- C6 (amended by adding nonnegative edge weights, which the counterexample
shows to be necessary): every list find_all_paths returns has pairwise
distinct node sequences, every entry fits the cost ceiling, the list is
sorted ascending by cost, and whenever the Dijkstra shortest path has cost
within the ceiling it is the first entry. -/
theorem C6_find_all_paths (g : Graph) (start goal : Node) (maxCost : WithTop ℚ)
    (hnn : NonnegWeights g) (hstart : start ∈ keysOf g) (hgoal : goal ∈ keysOf g)
    (L : List (List Node × WithTop ℚ))
    (hrun : find_all_paths g start goal maxCost = .ok L) :
    L.Pairwise (fun a b => a.1 ≠ b.1) ∧
    (∀ e ∈ L, e.2 ≤ maxCost) ∧
    L.Pairwise (fun a b => a.2 ≤ b.2) ∧
    (∀ sp sc, dijkstra_pathfinding g start goal = .ok (some sp, sc) → sc ≤ maxCost →
      L.head? = some (sp, sc)) := by
  rw [find_all_paths] at hrun
  rcases hd : dijkstra_pathfinding g start goal with e1 | pr
  · rw [hd, ex_bind_err] at hrun
    cases hrun
  · rcases pr with ⟨sp?, sc⟩
    rw [hd, ex_bind_ok] at hrun
    dsimp only at hrun
    rcases sp? with _ | sp
    · cases hrun
      refine ⟨List.Pairwise.nil, by simp, List.Pairwise.nil, ?_⟩
      intro sp0 sc0 hd0 _
      injection hd0 with hd0
      simp at hd0
    · dsimp only at hrun
      by_cases hemp : sp.isEmpty
      · exfalso
        rcases dijkstra_ok_spec hnn hd with ⟨q, _, hreach, _⟩
        rw [List.isEmpty_iff] at hemp
        exact reachP_ne_nil hreach hemp
      · rw [if_neg hemp] at hrun
        by_cases hlt : maxCost < sc
        · rw [if_pos hlt] at hrun
          cases hrun
          refine ⟨List.Pairwise.nil, by simp, List.Pairwise.nil, ?_⟩
          intro sp0 sc0 hd0 hle0
          injection hd0 with hd0
          simp only [Prod.mk.injEq] at hd0
          rcases hd0 with ⟨h1, h2⟩
          subst h2
          exact absurd hle0 (not_le.mpr hlt)
        · rw [if_neg hlt] at hrun
          rcases hec : edgeCandidates g start goal maxCost sp (sp.zip sp.tail) []
            with e1 | cands
          · rw [hec, ex_bind_err] at hrun
            cases hrun
          · rw [hec, ex_bind_ok] at hrun
            rcases hna : nodeAltLoop g start goal maxCost ((sp.drop 1).dropLast)
                (appendNew [(sp, sc)] (sortByCost cands)) with e1 | allp
            · rw [hna, ex_bind_err] at hrun
              cases hrun
            · rw [hna, ex_bind_ok] at hrun
              injection hrun with hrun
              subst hrun
              rcases dijkstra_ok_spec hnn hd with ⟨qs, hqs, hreachS, hoptS⟩
              have hB : ∀ e ∈ allp, e.2 ≤ maxCost ∧ sc ≤ e.2 := by
                intro e he
                rcases (nodeAltLoop_spec _ _ _ hna).1 e he with h1 | ⟨x, hdx, hlex⟩
                · rcases (appendNew_spec _ _).1 e h1 with h2 | h2
                  · rcases List.mem_singleton.mp h2 with rfl
                    exact ⟨le_of_not_lt hlt, le_refl _⟩
                  · have h3 := (sortByCost_perm cands).subset h2
                    rcases edgeCandidates_spec _ _ _ hec e h3 with h4 | ⟨u, v, hduv, hlee⟩
                    · simp at h4
                    · refine ⟨hlee, ?_⟩
                      rcases dijkstra_ok_spec (removeEdge_nonneg hnn u v) hduv with
                        ⟨qe, hqe, hreachE, _⟩
                      have hre : ReachP g start e.1 goal qe :=
                        reachP_mono (fun a b w h => removeEdge_edgeIn h) hreachE
                      rw [hqs, hqe, WithTop.coe_le_coe]
                      exact hoptS e.1 qe hre
                · refine ⟨hlex, ?_⟩
                  rcases dijkstra_ok_spec (removeNode_nonneg hnn x) hdx with
                    ⟨qe, hqe, hreachE, _⟩
                  have hre : ReachP g start e.1 goal qe :=
                    reachP_mono (fun a b w h => removeNode_edgeIn h) hreachE
                  rw [hqs, hqe, WithTop.coe_le_coe]
                  exact hoptS e.1 qe hre
              have hheadAE : (appendNew [(sp, sc)] (sortByCost cands)).head? = some (sp, sc) :=
                (appendNew_spec (sortByCost cands) [(sp, sc)]).2 (by simp)
              have hneAE : appendNew [(sp, sc)] (sortByCost cands) ≠ [] := by
                intro hcon
                rw [hcon] at hheadAE
                cases hheadAE
              have hheadA : allp.head? = some (sp, sc) := by
                rw [(nodeAltLoop_spec _ _ _ hna).2 hneAE]
                exact hheadAE
              have hL0 := dedupByJoin allp []
              have hheadD : (dedupByJoin allp []).head? = some (sp, sc) := by
                rcases allp with _ | ⟨a, tail⟩
                · cases hheadA
                · injection hheadA with ha
                  subst ha
                  exact dedupByJoin_head _ _
              have hminD : ∀ e ∈ dedupByJoin allp [], (sp, sc).2 ≤ e.2 := fun e he =>
                (hB e (dedupByJoin_subset allp [] e he)).2
              refine ⟨?_, ?_, sortByCost_pairwise _, ?_⟩
              · have hpw : (dedupByJoin allp []).Pairwise
                    (fun (a b : List Node × WithTop ℚ) => a.1 ≠ b.1) := by
                  refine List.Pairwise.imp ?_ (dedupByJoin_pairwise allp [])
                  intro a b hne heq
                  exact hne (by rw [heq])
                refine hpw.perm (sortByCost_perm _).symm ?_
                intro a b hab heq
                exact hab heq.symm
              · intro e he
                exact (hB e (dedupByJoin_subset allp [] e
                  ((sortByCost_perm _).subset he))).1
              · intro sp0 sc0 hd0 hle0
                injection hd0 with hd0
                simp only [Prod.mk.injEq] at hd0
                rcases hd0 with ⟨h1, h2⟩
                injection h1 with h1
                subst h1
                subst h2
                exact sortByCost_head hheadD hminD

/-- C6 witness: the direct-plus-detour graph with the infinite ceiling. -/
theorem C6_witness :
    ([(["S", "G"], ((1 : ℚ) : WithTop ℚ)), (["S", "A", "G"], ((2 : ℚ) : WithTop ℚ))].Pairwise
      (fun a b => a.1 ≠ b.1)) ∧
    (∀ e ∈ [(["S", "G"], ((1 : ℚ) : WithTop ℚ)), (["S", "A", "G"], ((2 : ℚ) : WithTop ℚ))],
      e.2 ≤ (⊤ : WithTop ℚ)) ∧
    ([(["S", "G"], ((1 : ℚ) : WithTop ℚ)), (["S", "A", "G"], ((2 : ℚ) : WithTop ℚ))].Pairwise
      (fun a b => a.2 ≤ b.2)) ∧
    (∀ sp sc, dijkstra_pathfinding detourG "S" "G" = .ok (some sp, sc) →
      sc ≤ (⊤ : WithTop ℚ) →
      [(["S", "G"], ((1 : ℚ) : WithTop ℚ)), (["S", "A", "G"], ((2 : ℚ) : WithTop ℚ))].head?
        = some (sp, sc)) :=
  C6_find_all_paths detourG "S" "G" ⊤ (by with_unfolding_all decide)
    (by with_unfolding_all decide) (by with_unfolding_all decide)
    [(["S", "G"], ((1 : ℚ) : WithTop ℚ)), (["S", "A", "G"], ((2 : ℚ) : WithTop ℚ))]
    (by with_unfolding_all decide)

/-- C4 (counterexample): removing the intermediate node B of the chain
A, B, C also removes the incoming edge A to B, which the claim says is
retained unchanged: the constructed copy differs from the spec-described
copy that only empties the outgoing edges of B. -/
theorem C4_counterexample :
    EdgeIn chainG "A" "B" 1 ∧
    lookupG (removeNode chainG "B") "A" = some [] ∧
    ¬ EdgeIn (removeNode chainG "B") "A" "B" 1 ∧
    removeNode chainG "B" ≠ removeNodeSpec chainG "B" := by
  refine ⟨⟨[("B", 1)], by with_unfolding_all decide, by simp⟩,
    by with_unfolding_all decide, ?_, ?_⟩
  · intro h
    rcases h with ⟨es, hl, hm⟩
    rw [show lookupG (removeNode chainG "B") "A" = some [] from by with_unfolding_all decide]
      at hl
    injection hl with hl
    rw [← hl] at hm
    simp at hm
  · with_unfolding_all decide

/-- C4 (amended): the node-removal loop of find_all_paths reruns Dijkstra on
removeNode, which empties the edge list of the removed node and also drops
every edge whose target is the removed node (the node is removed completely),
while keeping every other edge and the whole key set. -/
theorem C4_removeNode_char (g : Graph) (x : Node) :
    (∀ a b w, EdgeIn (removeNode g x) a b w ↔ (EdgeIn g a b w ∧ a ≠ x ∧ b ≠ x)) ∧
    keysOf (removeNode g x) = keysOf g := by
  constructor
  · intro a b w
    constructor
    · intro h
      have hg := removeNode_edgeIn h
      rcases h with ⟨es2, hl, hm⟩
      rw [lookupG_removeNode] at hl
      rcases hga : lookupG g a with _ | es
      · rw [hga] at hl
        cases hl
      · rw [hga] at hl
        injection hl with hl
        rw [← hl] at hm
        dsimp only at hm
        by_cases ha : a = x
        · rw [if_pos ha] at hm
          simp at hm
        · rw [if_neg ha] at hm
          refine ⟨hg, ha, ?_⟩
          rcases List.mem_filter.mp hm with ⟨_, hb⟩
          simp at hb
          exact hb
    · rintro ⟨⟨es, hl, hm⟩, ha, hb⟩
      refine ⟨es.filter (fun e => !(e.1 == x)), ?_, ?_⟩
      · rw [lookupG_removeNode, hl]
        simp only [Option.map_some']
        rw [if_neg ha]
      · rw [List.mem_filter]
        refine ⟨hm, ?_⟩
        simp [hb]
  · rw [removeNode]
    simp [keysOf, List.map_map, Function.comp]

/-- C4 witness: the characterization applied at the chain graph and node B. -/
theorem C4_witness :
    (EdgeIn (removeNode chainG "B") "A" "B" 1 ↔
      (EdgeIn chainG "A" "B" 1 ∧ "A" ≠ "B" ∧ "B" ≠ "B")) ∧
    keysOf (removeNode chainG "B") = keysOf chainG :=
  ⟨(C4_removeNode_char chainG "B").1 "A" "B" 1, (C4_removeNode_char chainG "B").2⟩

end LPA
